import Mathlib

/-!
Shallow embedding of the Beat-Kanji beatmap editor core
(`src/scripts/beatmap-editor/`) and proofs about its specified properties.

Python floats are modelled as exact rationals (`ℚ`); all claims here concern
exact values (the spec treats the computations as exact and deterministic).
Python lists are Lean lists, `list.sort`/`sorted` (stable) is
`List.insertionSort` (which is stable), and Python object identity for `Note`
objects is modelled by a ghost `id : ℕ` field that never enters dataclass
equality or serialization.
-/

namespace BeatKanji

/-- The five fixed lanes, `LANES` in `core/constants.py`. -/
inductive Lane where
  | base
  | drum
  | bass
  | vocal
  | lead
deriving DecidableEq, Repr

/-- Python's `round(q)` to an integer: round half to even (banker's rounding),
used to model `round(x, 3)` and `round(x, 1)` on exact rationals. -/
def pyRoundInt (q : ℚ) : ℤ :=
  let f : ℤ := ⌊q⌋
  let r : ℚ := q - (f : ℚ)
  if r < 1/2 then f
  else if 1/2 < r then f + 1
  else if f % 2 = 0 then f else f + 1

/-- Python `round(q, 3)` (millisecond rounding used throughout the editor). -/
def round3 (q : ℚ) : ℚ := (pyRoundInt (q * 1000) : ℚ) / 1000

/-- Python `round(q, 1)` (used for `bpm` / `total_duration` in `Meta.to_dict`). -/
def round1 (q : ℚ) : ℚ := (pyRoundInt (q * 10) : ℚ) / 10

/-- Python `int(q)` : truncation toward zero. -/
def pyTrunc (q : ℚ) : ℤ := if 0 ≤ q then ⌊q⌋ else -⌊-q⌋

/-- A note, `Note` in `core/beatmap.py`.  `time`, `level`, `type` are the
dataclass fields compared by `==`; `selected` has `compare=False`; `id` is a
ghost field modelling Python object identity (commands that mutate a note in
place refer to it through this id; it is not part of equality or
serialization). -/
structure MNote where
  time : ℚ
  level : ℤ
  type : Lane
  selected : Bool := false
  id : ℕ := 0
deriving DecidableEq, Repr

/-- Dataclass equality on `Note` (`==` in Python): compares exactly the fields
`time`, `level`, `type`. -/
def veqb (a b : MNote) : Bool :=
  decide (a.time = b.time) && decide (a.level = b.level) && decide (a.type = b.type)

/-- `Note.copy()`: same `time`/`level`/`type`, `selected` reset to `False`, a
fresh object.  The fresh object's identity is modelled by the caller choosing a
new `id`; where a claim never observes the copy's identity we keep the id. -/
def MNote.copy (n : MNote) : MNote := { n with selected := false }

/-- Metadata, `BeatmapMeta` in `core/beatmap.py`. -/
structure BeatmapMeta where
  version : String := "1.1"
  filename : String := ""
  title : String := ""
  category : String := ""
  priority : ℤ := 0
  bpm : ℚ := 120
  total_duration : ℚ := 0
deriving DecidableEq, Repr

/-- The beatmap state: `meta`, the `_notes` list and the `_dirty` flag. -/
structure Beatmap where
  meta : BeatmapMeta := {}
  notes : List MNote := []
  dirty : Bool := false
deriving DecidableEq, Repr

/-- The sort relation used by every `self._notes.sort(key=lambda n: n.time)`. -/
def timeLe (a b : MNote) : Prop := a.time ≤ b.time

instance : DecidableRel timeLe := fun a b => by unfold timeLe; infer_instance

instance : IsTotal MNote timeLe := ⟨fun a b => le_total a.time b.time⟩

instance : IsTrans MNote timeLe := ⟨fun _ _ _ h h' => le_trans h h'⟩

/-- Python's stable `list.sort(key=lambda n: n.time)`, modelled by the (stable)
insertion sort. -/
def sortNotes (l : List MNote) : List MNote := l.insertionSort timeLe

/-- `Beatmap.add_note`: append, re-sort, mark dirty. -/
def add_note (b : Beatmap) (n : MNote) : Beatmap :=
  { b with notes := sortNotes (b.notes ++ [n]), dirty := true }

/-- `Beatmap.remove_note`: remove the first `==`-equal note if present; the
dirty flag is set only in that case. -/
def remove_note (b : Beatmap) (n : MNote) : Beatmap :=
  if b.notes.any (veqb n) then
    { b with notes := b.notes.eraseP (veqb n), dirty := true }
  else b

/-- One iteration of the loop in `Beatmap.remove_notes`. -/
def removeOne (l : List MNote) (n : MNote) : List MNote :=
  if l.any (veqb n) then l.eraseP (veqb n) else l

/-- `Beatmap.remove_notes`: remove each note if present, then set dirty
unconditionally. -/
def remove_notes (b : Beatmap) (ns : List MNote) : Beatmap :=
  { b with notes := ns.foldl removeOne b.notes, dirty := true }

/-- `Beatmap.set_notes`: replace with `sorted(notes, key=lambda n: n.time)`. -/
def set_notes (b : Beatmap) (ns : List MNote) : Beatmap :=
  { b with notes := sortNotes ns, dirty := true }

/-- `Beatmap.clear`. -/
def Beatmap.clear (b : Beatmap) : Beatmap :=
  { b with notes := [], dirty := true }

/-- `Beatmap.mark_dirty`. -/
def mark_dirty (b : Beatmap) : Beatmap := { b with dirty := true }

/-! ## Serialization (`to_dict` / `from_dict`) -/

/-- The dictionary produced by `Note.to_dict`. -/
structure SerNote where
  time : ℚ
  level : ℤ
  type : Lane
deriving DecidableEq, Repr

/-- `Note.to_dict`: time rounded to 3 decimals; `selected` (and identity) never
persisted. -/
def noteToDict (n : MNote) : SerNote := ⟨round3 n.time, n.level, n.type⟩

/-- `Note.from_dict` (fresh object, `selected = False`). -/
def noteFromDict (s : SerNote) : MNote := ⟨s.time, s.level, s.type, false, 0⟩

/-- The dictionary produced by `BeatmapMeta.to_dict`: `title` / `category`
omitted when empty (`none`), `bpm` / `total_duration` rounded to 1 decimal. -/
structure SerMeta where
  version : String
  filename : String
  title : Option String
  category : Option String
  priority : ℤ
  bpm : ℚ
  total_duration : ℚ
deriving DecidableEq, Repr

/-- `BeatmapMeta.to_dict`. -/
def metaToDict (m : BeatmapMeta) : SerMeta :=
  ⟨m.version, m.filename,
   if m.title = "" then none else some m.title,
   if m.category = "" then none else some m.category,
   m.priority, round1 m.bpm, round1 m.total_duration⟩

/-- `Beatmap.to_dict`: the JSON object `{meta, notes}`.  JSON printing is
injective on this structure, so "byte-identical serialized form" is equality
of `beatmapToDict`. -/
def beatmapToDict (b : Beatmap) : SerMeta × List SerNote :=
  (metaToDict b.meta, b.notes.map noteToDict)

/-- `BeatmapMeta.from_dict` (keys absent fall back to defaults). -/
def metaFromDict (s : SerMeta) : BeatmapMeta :=
  ⟨s.version, s.filename, s.title.getD "", s.category.getD "", s.priority,
   s.bpm, s.total_duration⟩

/-- `Beatmap.from_dict`: parse the notes, then sort by time; the fresh beatmap
is not dirty. -/
def beatmapFromDict (d : SerMeta × List SerNote) : Beatmap :=
  ⟨metaFromDict d.1, sortNotes (d.2.map noteFromDict), false⟩

/-- The `(time, level, lane)` view of a note, the equality used by the spec's
round-trip property. -/
def projNote (n : MNote) : ℚ × ℤ × Lane := (n.time, n.level, n.type)

/-! ## Grid (`utils/grid.py`) -/

/-- The fold implementing `np.argmin(np.abs(grid - time))` followed by
`grid[idx]`: scan keeping the value of the first index attaining the minimal
distance (`<` keeps the earlier element on ties, as `np.argmin` returns the
first minimizing index). -/
def pickMin (t : ℚ) (g : ℚ) (gs : List ℚ) : ℚ :=
  gs.foldl (fun best x => if |x - t| < |best - t| then x else best) g

/-- `snap_to_grid` in `utils/grid.py`: empty grid is a no-op, otherwise the
grid element nearest to `time` (first minimum wins). -/
def snap_to_grid (time : ℚ) (grid : List ℚ) : ℚ :=
  match grid with
  | [] => time
  | g :: gs => pickMin time g gs

lemma pickMin_cons (t g x : ℚ) (xs : List ℚ) :
    pickMin t g (x :: xs) = pickMin t (if |x - t| < |g - t| then x else g) xs := rfl

lemma pickMin_mem (t : ℚ) (gs : List ℚ) :
    ∀ g, pickMin t g gs = g ∨ pickMin t g gs ∈ gs := by
  induction gs with
  | nil => exact fun g => Or.inl rfl
  | cons x xs ih =>
    intro g
    rw [pickMin_cons]
    by_cases h : |x - t| < |g - t|
    · rw [if_pos h]
      rcases ih x with h' | h'
      · exact Or.inr (by rw [h']; exact List.mem_cons_self x xs)
      · exact Or.inr (List.mem_cons_of_mem _ h')
    · rw [if_neg h]
      rcases ih g with h' | h'
      · exact Or.inl h'
      · exact Or.inr (List.mem_cons_of_mem _ h')

lemma pickMin_min (t : ℚ) (gs : List ℚ) :
    ∀ g, ∀ x ∈ g :: gs, |pickMin t g gs - t| ≤ |x - t| := by
  induction gs with
  | nil =>
    intro g x hx
    have := List.mem_singleton.mp hx
    subst this
    exact le_refl _
  | cons y ys ih =>
    intro g x hx
    rw [pickMin_cons]
    have hbg : |(if |y - t| < |g - t| then y else g) - t| ≤ |g - t| := by
      by_cases h : |y - t| < |g - t|
      · rw [if_pos h]; exact le_of_lt h
      · rw [if_neg h]
    have hby : |(if |y - t| < |g - t| then y else g) - t| ≤ |y - t| := by
      by_cases h : |y - t| < |g - t|
      · rw [if_pos h]
      · rw [if_neg h]; exact not_lt.mp h
    have hpb : |pickMin t (if |y - t| < |g - t| then y else g) ys - t| ≤
        |(if |y - t| < |g - t| then y else g) - t| :=
      ih _ _ (List.mem_cons_self _ ys)
    rcases List.mem_cons.mp hx with rfl | hx
    · exact le_trans hpb hbg
    rcases List.mem_cons.mp hx with rfl | hx
    · exact le_trans hpb hby
    · exact ih _ x (List.mem_cons_of_mem _ hx)

lemma snap_mem (t : ℚ) {grid : List ℚ} (h : grid ≠ []) : snap_to_grid t grid ∈ grid := by
  match grid with
  | [] => exact absurd rfl h
  | g :: gs =>
    show pickMin t g gs ∈ g :: gs
    rcases pickMin_mem t gs g with h' | h'
    · rw [h']; exact List.mem_cons_self g gs
    · exact List.mem_cons_of_mem _ h'

lemma snap_min (t : ℚ) {grid : List ℚ} (x : ℚ) (hx : x ∈ grid) :
    |snap_to_grid t grid - t| ≤ |x - t| := by
  match grid with
  | [] => cases hx
  | g :: gs => exact pickMin_min t gs g x hx

/-- C8: `snap` is idempotent: `snap(snap(t, grid), grid) == snap(t, grid)` for
every time `t` and every grid, including the empty one. -/
theorem C8_snap_idempotent (t : ℚ) (grid : List ℚ) :
    snap_to_grid (snap_to_grid t grid) grid = snap_to_grid t grid := by
  match h : grid with
  | [] => rfl
  | g :: gs =>
    have hne : (g :: gs : List ℚ) ≠ [] := by simp
    set v := snap_to_grid t (g :: gs) with hv
    have hmem : snap_to_grid v (g :: gs) ∈ g :: gs := snap_mem v hne
    have hmin : |snap_to_grid v (g :: gs) - v| ≤ |v - v| := snap_min v v (by rw [hv]; exact snap_mem t hne)
    rw [sub_self, abs_zero] at hmin
    have : |snap_to_grid v (g :: gs) - v| = 0 := le_antisymm hmin (abs_nonneg _)
    have := abs_eq_zero.mp this
    linarith [this]

/-- C10: `remove_notes` marks the beatmap dirty unconditionally (even when it
removed nothing, e.g. on an empty list), while `remove_note` is a strict no-op
(dirty flag included) when the note is not present and sets the dirty flag when
it is. -/
theorem C10_remove_dirty :
    (∀ b ns, (remove_notes b ns).dirty = true) ∧
    (∀ b n, b.notes.any (veqb n) = false → remove_note b n = b) ∧
    (∀ b n, b.notes.any (veqb n) = true → (remove_note b n).dirty = true) := by
  refine ⟨fun b ns => rfl, fun b n h => ?_, fun b n h => ?_⟩
  · unfold remove_note
    rw [h]
    simp
  · unfold remove_note
    rw [h]
    simp

/-- Witness for C10 at concrete inputs: a beatmap holding one note; removing a
different note leaves it untouched, removing a matching note sets dirty. -/
theorem C10_remove_dirty_witness :
    (remove_note ⟨{}, [⟨1, 1, Lane.base, false, 0⟩], false⟩ ⟨2, 1, Lane.base, false, 5⟩ =
      ⟨{}, [⟨1, 1, Lane.base, false, 0⟩], false⟩) ∧
    (remove_note ⟨{}, [⟨1, 1, Lane.base, false, 0⟩], false⟩ ⟨1, 1, Lane.base, true, 5⟩).dirty = true :=
  ⟨C10_remove_dirty.2.1 _ _ (by decide), C10_remove_dirty.2.2 _ _ (by decide)⟩

/-! ## History (`core/history.py`)

`History` is generic over the command type `C`; `run` / `unrun` stand for
`command.execute()` / `command.undo()` acting on the edited state `S`, and
`desc` for `command.description`.  The Python undo stack appends at the end,
pops from the end, and `_trim_stack` pops index 0 while over the bound; we
represent the stack with the most recent command first (push = cons, pop =
head, popping index 0 = `dropLast`), the standard stack refinement. -/

structure History (C : Type) where
  undoStack : List C := []
  redoStack : List C := []
  maxSize : ℕ := 100

/-- A `History` together with the state it edits (the beatmap in the source). -/
structure Session (C S : Type) where
  hist : History C
  state : S

/-- `History._trim_stack`: `while len > max_size: pop(0)` (pop the oldest). -/
def trimStack {C : Type} (l : List C) (m : ℕ) : List C :=
  if l.length > m then trimStack l.dropLast m else l
termination_by l.length
decreasing_by
  rename_i h
  simp only [List.length_dropLast]
  omega

lemma trimStack_eq_take {C : Type} (l : List C) (m : ℕ) : trimStack l m = l.take m := by
  by_cases h : l.length ≤ m
  · rw [trimStack, if_neg (by omega), List.take_of_length_le h]
  · have hlen : l.length > m := by omega
    rw [trimStack, if_pos hlen]
    have hrec : trimStack l.dropLast m = l.dropLast.take m := by
      have : l.dropLast.length < l.length := by
        simp only [List.length_dropLast]; omega
      exact trimStack_eq_take l.dropLast m
    rw [hrec, List.dropLast_eq_take, List.take_take]
    congr 1
    omega
termination_by l.length

/-- `History.execute`: run the command, push it, clear the redo stack, trim. -/
def histExecute {C S : Type} (run : C → S → S) (c : C) (sess : Session C S) :
    Session C S :=
  { hist := { undoStack := trimStack (c :: sess.hist.undoStack) sess.hist.maxSize,
              redoStack := [],
              maxSize := sess.hist.maxSize },
    state := run c sess.state }

/-- `History.undo`: pop, run the command's `undo()`, push onto redo, return the
description — or return the `None` sentinel on an empty stack. -/
def histUndo {C S : Type} (unrun : C → S → S) (desc : C → String)
    (sess : Session C S) : Option String × Session C S :=
  match sess.hist.undoStack with
  | [] => (none, sess)
  | c :: rest =>
    (some (desc c),
     { hist := { undoStack := rest,
                 redoStack := c :: sess.hist.redoStack,
                 maxSize := sess.hist.maxSize },
       state := unrun c sess.state })

/-- Execute a list of commands in order through the history. -/
def execList {C S : Type} (run : C → S → S) (cmds : List C) (sess : Session C S) :
    Session C S :=
  cmds.foldl (fun s c => histExecute run c s) sess

/-- Call `undo()` `k` times, collecting the returned descriptions/sentinels in
call order. -/
def undoRun {C S : Type} (unrun : C → S → S) (desc : C → String) :
    ℕ → Session C S → List (Option String) × Session C S
  | 0, sess => ([], sess)
  | k + 1, sess =>
    let r := histUndo unrun desc sess
    let rest := undoRun unrun desc k r.2
    (r.1 :: rest.1, rest.2)

lemma take_append_take {C : Type} (A l : List C) (m : ℕ) :
    (A ++ l.take m).take m = (A ++ l).take m := by
  rw [List.take_append_eq_append_take, List.take_append_eq_append_take,
    List.take_take, Nat.min_eq_left (Nat.sub_le _ _)]

lemma execList_stack {C S : Type} (run : C → S → S) (cmds : List C) :
    ∀ sess : Session C S, sess.hist.undoStack.length ≤ sess.hist.maxSize →
      (execList run cmds sess).hist.undoStack =
        (cmds.reverse ++ sess.hist.undoStack).take sess.hist.maxSize ∧
      (execList run cmds sess).hist.maxSize = sess.hist.maxSize := by
  induction cmds with
  | nil =>
    intro sess h
    refine ⟨?_, rfl⟩
    have hh : (List.reverse ([] : List C) ++ sess.hist.undoStack).take sess.hist.maxSize
        = sess.hist.undoStack := by
      rw [List.reverse_nil, List.nil_append, List.take_of_length_le h]
    exact hh.symm
  | cons c cs ih =>
    intro sess h
    have hstep : execList run (c :: cs) sess = execList run cs (histExecute run c sess) := rfl
    have h1 : (histExecute run c sess).hist.undoStack =
        (c :: sess.hist.undoStack).take sess.hist.maxSize := trimStack_eq_take _ _
    have hm : (histExecute run c sess).hist.maxSize = sess.hist.maxSize := rfl
    have hlen : (histExecute run c sess).hist.undoStack.length ≤
        (histExecute run c sess).hist.maxSize := by
      rw [h1, hm]
      exact le_trans (List.length_take_le _ _) (le_refl _)
    obtain ⟨ha, hb⟩ := ih (histExecute run c sess) hlen
    rw [hstep, ha, h1, hm, take_append_take]
    constructor
    · congr 1
      simp [List.append_assoc]
    · exact hb

lemma undoRun_stack {C S : Type} (unrun : C → S → S) (desc : C → String)
    (stack : List C) :
    ∀ (redo : List C) (m : ℕ) (s : S),
      (undoRun unrun desc (stack.length + 1) ⟨⟨stack, redo, m⟩, s⟩).1 =
        stack.map (fun c => some (desc c)) ++ [none] := by
  induction stack with
  | nil =>
    intro redo m s
    rfl
  | cons c cs ih =>
    intro redo m s
    show some (desc c) ::
        (undoRun unrun desc (cs.length + 1) ⟨⟨cs, c :: redo, m⟩, unrun c s⟩).1 = _
    rw [ih (c :: redo) m (unrun c s)]
    rfl

lemma undoRun_stack_sess {C S : Type} (unrun : C → S → S) (desc : C → String)
    (sess : Session C S) (k : ℕ) (hk : sess.hist.undoStack.length = k) :
    (undoRun unrun desc (k + 1) sess).1 =
      sess.hist.undoStack.map (fun c => some (desc c)) ++ [none] := by
  subst hk
  exact undoRun_stack unrun desc sess.hist.undoStack sess.hist.redoStack
    sess.hist.maxSize sess.state

/-- C2: starting from an empty `History` with size bound `N` and executing
`N + 5` commands, the first `N` calls to `undo()` each return a description
(those of the last `N` commands, newest first) and the `(N+1)`-th returns the
`None` sentinel; the oldest 5 commands have been silently dropped from the
undo stack. -/
theorem C2_history_bound {C S : Type} (run unrun : C → S → S) (desc : C → String)
    (N : ℕ) (cmds : List C) (h : cmds.length = N + 5) (s0 : S) :
    (execList run cmds ⟨⟨[], [], N⟩, s0⟩).hist.undoStack = (cmds.drop 5).reverse ∧
    (undoRun unrun desc (N + 1) (execList run cmds ⟨⟨[], [], N⟩, s0⟩)).1 =
      (cmds.drop 5).reverse.map (fun c => some (desc c)) ++ [none] := by
  have hstack : (execList run cmds ⟨⟨[], [], N⟩, s0⟩).hist.undoStack =
      (cmds.drop 5).reverse := by
    obtain ⟨ha, _⟩ := execList_stack run cmds ⟨⟨[], [], N⟩, s0⟩ (by simp)
    rw [ha]
    show (cmds.reverse ++ []).take N = _
    rw [List.append_nil, List.take_reverse, h]
    have h5 : N + 5 - N = 5 := by omega
    rw [h5]
  refine ⟨hstack, ?_⟩
  have hlen : (execList run cmds ⟨⟨[], [], N⟩, s0⟩).hist.undoStack.length = N := by
    rw [hstack, List.length_reverse, List.length_drop, h]
    omega
  have hfull := undoRun_stack_sess unrun desc
    (execList run cmds ⟨⟨[], [], N⟩, s0⟩) N hlen
  rw [hstack] at hfull
  exact hfull

/-- Witness for C2 at `N = 2` with seven commands: two successful undos, then
the sentinel. -/
theorem C2_history_bound_witness :
    (execList (fun (_ : ℕ) (s : Unit) => s) [0, 1, 2, 3, 4, 5, 6]
        ⟨⟨[], [], 2⟩, ()⟩).hist.undoStack = ([5, 6] : List ℕ).reverse ∧
    (undoRun (fun _ s => s) (fun c => toString c) (2 + 1)
        (execList (fun _ s => s) [0, 1, 2, 3, 4, 5, 6] ⟨⟨[], [], 2⟩, ()⟩)).1 =
      ([5, 6] : List ℕ).reverse.map (fun c => some (toString c)) ++ [none] :=
  C2_history_bound (fun _ s => s) (fun _ s => s) (fun c => toString c) 2
    [0, 1, 2, 3, 4, 5, 6] rfl ()

/-! ## C5: serialization round-trip -/

/-- C5 fails as stated: a note at an arbitrary valid time that is not at
millisecond precision is moved by the rounding in `Note.to_dict`.  Concretely,
a beatmap holding one note at `t = 1/2500 = 0.0004 s` round-trips to a note at
`t = 0`. -/
theorem C5_roundtrip_counterexample :
    (beatmapFromDict (beatmapToDict ⟨{}, [⟨1/2500, 1, Lane.base, false, 0⟩], false⟩)).notes.map
        projNote ≠
      ([⟨1/2500, 1, Lane.base, false, 0⟩] : List MNote).map projNote := by
  norm_num [beatmapFromDict, beatmapToDict, noteFromDict, noteToDict, sortNotes,
    round3, pyRoundInt, projNote, List.insertionSort]

/-- C5 (amended): for every Beatmap whose note list is time-sorted (the data
model invariant) and whose note times are at millisecond precision (fixed by
`round(·, 3)`), `from_dict (to_dict b)` preserves the note sequence under
`(time, level, lane)` equality. -/
theorem C5_roundtrip_amended (b : Beatmap) (hs : b.notes.Sorted timeLe)
    (hms : ∀ n ∈ b.notes, round3 n.time = n.time) :
    (beatmapFromDict (beatmapToDict b)).notes.map projNote = b.notes.map projNote := by
  show (sortNotes ((b.notes.map noteToDict).map noteFromDict)).map projNote = _
  rw [List.map_map]
  have htime : ∀ n ∈ b.notes, ((noteFromDict ∘ noteToDict) n).time = n.time := by
    intro n hn
    show round3 n.time = n.time
    exact hms n hn
  have hsorted : (b.notes.map (noteFromDict ∘ noteToDict)).Sorted timeLe := by
    rw [List.Sorted, List.pairwise_map]
    refine List.Pairwise.imp_of_mem ?_ hs
    intro a c ha hc hle
    show ((noteFromDict ∘ noteToDict) a).time ≤ ((noteFromDict ∘ noteToDict) c).time
    rw [htime a ha, htime c hc]
    exact hle
  rw [sortNotes, List.Sorted.insertionSort_eq hsorted, List.map_map]
  refine List.map_congr_left ?_
  intro n hn
  show (round3 n.time, n.level, n.type) = (n.time, n.level, n.type)
  rw [hms n hn]

/-- Witness for the amended C5: a beatmap with two millisecond-precision notes
(including a duplicate `(time, lane)` pair) survives the round-trip. -/
theorem C5_roundtrip_amended_witness :
    (beatmapFromDict (beatmapToDict
        ⟨{}, [⟨1/2, 2, Lane.drum, true, 3⟩, ⟨1/2, 3, Lane.drum, false, 7⟩], true⟩)).notes.map
        projNote =
      ([⟨1/2, 2, Lane.drum, true, 3⟩, ⟨1/2, 3, Lane.drum, false, 7⟩] : List MNote).map projNote :=
  C5_roundtrip_amended ⟨{}, [⟨1/2, 2, Lane.drum, true, 3⟩, ⟨1/2, 3, Lane.drum, false, 7⟩], true⟩
    (by norm_num [List.sorted_cons, timeLe])
    (by norm_num [round3, pyRoundInt])

/-! ## Peak detection (`utils/peaks.py`)

`detect_peaks` receives the `rms` array of the waveform dict directly (the
falsy-dict / missing-`rms` / empty-array guards all collapse to the empty
list). -/

/-- The inner `while j < num_samples and rms[j] >= threshold` loop: track the
value and index of the first local maximum (strict `>` keeps the earliest).
`v`/`bi` are the best value and index so far, `j` the index of the head of the
remaining region. -/
def scanMax : ℚ → ℕ → ℕ → List ℚ → ℚ × ℕ
  | v, bi, _, [] => (v, bi)
  | v, bi, j, x :: xs => if v < x then scanMax x j (j + 1) xs else scanMax v bi (j + 1) xs

/-- The outer scan loop of `detect_peaks`, over the suffix of `rms` starting at
sample index `i`, with the hysteresis state `armed` and the index of the last
accepted peak (`last_peak_sample`).  Returns the accepted peak indices in
order.  When a sample reaches the threshold the whole contiguous
above-threshold region (the sample itself, then `rest.takeWhile`) is consumed
at once, exactly as the `i = j` skip in the source. -/
def peakScan (threshold rearm : ℚ) (minGap : ℤ) (l : List ℚ) (i : ℕ)
    (armed : Bool) (last : ℤ) : List ℕ :=
  match l with
  | [] => []
  | val :: rest =>
    if armed then
      if threshold ≤ val then
        let regionTail := rest.takeWhile (fun v => decide (threshold ≤ v))
        let pk := (scanMax val i (i + 1) regionTail).2
        let j := i + (regionTail.length + 1)
        if (pk : ℤ) - last ≥ minGap then
          pk :: peakScan threshold rearm minGap (rest.drop regionTail.length) j false (pk : ℤ)
        else
          peakScan threshold rearm minGap (rest.drop regionTail.length) j false last
      else
        peakScan threshold rearm minGap rest (i + 1) true last
    else
      if val < rearm then peakScan threshold rearm minGap rest (i + 1) true last
      else peakScan threshold rearm minGap rest (i + 1) false last
termination_by l.length
decreasing_by
  all_goals simp [List.length_drop]
  all_goals omega

/-- `np.max` over a nonempty array. -/
def listMax (x : ℚ) (xs : List ℚ) : ℚ := xs.foldl max x

/-- `np.min` over a nonempty array. -/
def listMin (x : ℚ) (xs : List ℚ) : ℚ := xs.foldl min x

/-- `detect_peaks` in `utils/peaks.py`.  `rearm_threshold_percent = none`
models the Python `None` default (70% of `threshold_percent`,
`DEFAULT_REARM_RATIO = 0.7`). -/
def detect_peaks (rms : List ℚ) (duration : ℚ) (threshold_percent : ℚ)
    (min_gap_seconds : ℚ) (rearm_threshold_percent : Option ℚ) : List ℚ :=
  match rms with
  | [] => []
  | r0 :: rrest =>
    let n : ℕ := rrest.length + 1
    let mx := listMax r0 rrest
    let mn := listMin r0 rrest
    if mx - mn ≤ 0 then []
    else
      let threshold := mn + (mx - mn) * threshold_percent / 100
      let rearmP := rearm_threshold_percent.getD (threshold_percent * (7/10))
      let rearm := mn + (mx - mn) * rearmP / 100
      let sps : ℚ := if 0 < duration then (n : ℚ) / duration else 1
      let minGap : ℤ := pyTrunc (min_gap_seconds * sps)
      (peakScan threshold rearm minGap (r0 :: rrest) 0 true (-minGap)).map
        (fun idx : ℕ => ((idx : ℚ) / (n : ℚ)) * duration)

lemma foldl_max_replicate (v : ℚ) : ∀ k, List.foldl max v (List.replicate k v) = v := by
  intro k
  induction k with
  | zero => rfl
  | succ m ih =>
    show List.foldl max (max v v) (List.replicate m v) = v
    rw [max_self]
    exact ih

lemma foldl_min_replicate (v : ℚ) : ∀ k, List.foldl min v (List.replicate k v) = v := by
  intro k
  induction k with
  | zero => rfl
  | succ m ih =>
    show List.foldl min (min v v) (List.replicate m v) = v
    rw [min_self]
    exact ih

/-- C4 fails as stated: with a non-constant envelope and `duration = 0`,
`detect_peaks` does not return the empty list — it falls back to
`samples_per_second = 1` and proceeds, here accepting the sample at index 1
and reporting it at time `(1/2)·0 = 0`. -/
theorem C4_duration_counterexample :
    detect_peaks [0, 10] 0 50 (1/20) none = [0] ∧
    detect_peaks [0, 10] 0 50 (1/20) none ≠ [] := by
  have h : detect_peaks [0, 10] 0 50 (1/20) none = [0] := by
    norm_num [detect_peaks, listMax, listMin, pyTrunc, peakScan, scanMax]
  exact ⟨h, by rw [h]; simp⟩

/-- C4 (amended): `duration ≤ 0` does not short-circuit `detect_peaks` to the
empty result; what holds is: an empty envelope gives `[]`, a constant
envelope gives `[]` for any duration and thresholds, the failure is always a
plain return value, and with `duration ≤ 0` every returned peak time is
`≤ 0` (so `0` when `duration = 0`). -/
theorem C4_empty_flat_amended :
    (∀ d th g ro, detect_peaks [] d th g ro = []) ∧
    (∀ (v : ℚ) (k : ℕ) d th g ro, detect_peaks (List.replicate k v) d th g ro = []) ∧
    (∀ rms d th g ro t, t ∈ detect_peaks rms d th g ro → d ≤ 0 → t ≤ 0) := by
  refine ⟨fun d th g ro => rfl, ?_, ?_⟩
  · intro v k d th g ro
    match k with
    | 0 => rfl
    | m + 1 =>
      show detect_peaks (v :: List.replicate m v) d th g ro = []
      simp only [detect_peaks]
      rw [show listMax v (List.replicate m v) = v from foldl_max_replicate v m,
        show listMin v (List.replicate m v) = v from foldl_min_replicate v m]
      simp
  · intro rms d th g ro t ht hd
    match rms with
    | [] => simp [detect_peaks] at ht
    | r0 :: rrest =>
      unfold detect_peaks at ht
      by_cases hr : listMax r0 rrest - listMin r0 rrest ≤ 0
      · simp [hr] at ht
      · simp only [hr, if_neg, not_false_iff, List.mem_map] at ht
        obtain ⟨idx, _, rfl⟩ := ht
        have h1 : (0 : ℚ) ≤ (idx : ℚ) / ((rrest.length + 1 : ℕ) : ℚ) := by
          apply div_nonneg
          · exact_mod_cast Nat.zero_le idx
          · exact_mod_cast Nat.zero_le _
        exact mul_nonpos_of_nonneg_of_nonpos h1 hd

/-- Witness for the amended C4: the peak time `0` returned at `duration = 0`
on the envelope `[0, 10]` is `≤ 0`, and the empty envelope gives `[]`. -/
theorem C4_empty_flat_amended_witness :
    ((0 : ℚ) ≤ 0) ∧ detect_peaks [] 1 50 (1/20) none = [] :=
  ⟨C4_empty_flat_amended.2.2 [0, 10] 0 50 (1/20) none 0
      (by norm_num [detect_peaks, listMax, listMin, pyTrunc, peakScan, scanMax])
      (le_refl 0),
   C4_empty_flat_amended.1 1 50 (1/20) none⟩

/-! ## C3: peak ordering and the minimum-gap guarantee -/

lemma scanMax_bounds : ∀ (l : List ℚ) (v : ℚ) (bi j : ℕ),
    (scanMax v bi j l).2 = bi ∨
      (j ≤ (scanMax v bi j l).2 ∧ (scanMax v bi j l).2 < j + l.length) := by
  intro l
  induction l with
  | nil => intro v bi j; exact Or.inl rfl
  | cons x xs ih =>
    intro v bi j
    have hstep : scanMax v bi j (x :: xs) =
        if v < x then scanMax x j (j + 1) xs else scanMax v bi (j + 1) xs := rfl
    rw [hstep]
    by_cases h : v < x
    · rw [if_pos h]
      rcases ih x j (j + 1) with h' | ⟨h1, h2⟩
      · right
        rw [h']
        simp only [List.length_cons]
        omega
      · right
        simp only [List.length_cons]
        omega
    · rw [if_neg h]
      rcases ih v bi (j + 1) with h' | ⟨h1, h2⟩
      · exact Or.inl h'
      · right
        simp only [List.length_cons]
        omega

lemma scanMax_region (val : ℚ) (i : ℕ) (rt : List ℚ) :
    i ≤ (scanMax val i (i + 1) rt).2 ∧ (scanMax val i (i + 1) rt).2 < i + (rt.length + 1) := by
  rcases scanMax_bounds rt val i (i + 1) with h | ⟨h1, h2⟩ <;> omega

lemma peakScan_invariant (threshold rearm : ℚ) (minGap : ℤ) :
    ∀ (n : ℕ) (l : List ℚ), l.length ≤ n → ∀ (i : ℕ) (armed : Bool) (last : ℤ),
      (∀ x ∈ peakScan threshold rearm minGap l i armed last, i ≤ x) ∧
      (∀ h, (peakScan threshold rearm minGap l i armed last).head? = some h →
        (h : ℤ) - last ≥ minGap) ∧
      List.Chain' (fun a b : ℕ => a < b ∧ (b : ℤ) - (a : ℤ) ≥ minGap)
        (peakScan threshold rearm minGap l i armed last) := by
  intro n
  induction n with
  | zero =>
    intro l hl i armed last
    have : l = [] := List.eq_nil_of_length_eq_zero (Nat.le_zero.mp hl)
    subst this
    refine ⟨?_, ?_, ?_⟩ <;> simp [peakScan]
  | succ m ih =>
    intro l hl i armed last
    match l with
    | [] => refine ⟨?_, ?_, ?_⟩ <;> simp [peakScan]
    | val :: rest =>
      have hrest : rest.length ≤ m := by
        simp only [List.length_cons] at hl
        omega
      cases armed with
      | false =>
        by_cases hre : val < rearm
        · have hout : peakScan threshold rearm minGap (val :: rest) i false last =
              peakScan threshold rearm minGap rest (i + 1) true last := by
            simp [peakScan, hre]
          rw [hout]
          obtain ⟨ha, hb, hc⟩ := ih rest hrest (i + 1) true last
          exact ⟨fun x hx => le_trans (Nat.le_succ i) (ha x hx), hb, hc⟩
        · have hout : peakScan threshold rearm minGap (val :: rest) i false last =
              peakScan threshold rearm minGap rest (i + 1) false last := by
            simp [peakScan, hre]
          rw [hout]
          obtain ⟨ha, hb, hc⟩ := ih rest hrest (i + 1) false last
          exact ⟨fun x hx => le_trans (Nat.le_succ i) (ha x hx), hb, hc⟩
      | true =>
        by_cases hth : threshold ≤ val
        · have hpk := scanMax_region val i (rest.takeWhile (fun v => decide (threshold ≤ v)))
          set rt := rest.takeWhile (fun v => decide (threshold ≤ v)) with hrt
          set pk := (scanMax val i (i + 1) rt).2 with hpkdef
          have hdroplen : (rest.drop rt.length).length ≤ m :=
            le_trans (by rw [List.length_drop]; omega) hrest
          by_cases hacc : (pk : ℤ) - last ≥ minGap
          · have hout : peakScan threshold rearm minGap (val :: rest) i true last =
                pk :: peakScan threshold rearm minGap (rest.drop rt.length)
                  (i + (rt.length + 1)) false (pk : ℤ) := by
              simp [peakScan, hth, hacc, ← hrt, ← hpkdef]
            rw [hout]
            obtain ⟨ha, hb, hc⟩ := ih (rest.drop rt.length) hdroplen
              (i + (rt.length + 1)) false (pk : ℤ)
            refine ⟨?_, ?_, ?_⟩
            · intro x hx
              rcases List.mem_cons.mp hx with rfl | hx
              · exact hpk.1
              · exact le_trans (by omega) (ha x hx)
            · intro h hh
              rw [List.head?_cons, Option.some_inj] at hh
              subst hh
              exact hacc
            · rw [List.chain'_cons']
              refine ⟨?_, hc⟩
              intro y hy
              have hy' := List.mem_of_mem_head? hy
              have h1 : i + (rt.length + 1) ≤ y := ha y hy'
              have h2 : (y : ℤ) - (pk : ℤ) ≥ minGap := by
                rcases hmem : (peakScan threshold rearm minGap (rest.drop rt.length)
                    (i + (rt.length + 1)) false (pk : ℤ)).head? with _ | z
                · rw [hmem] at hy; cases hy
                · rw [hmem] at hy
                  have : y = z := by
                    simp only [Option.mem_def, Option.some_inj] at hy
                    exact hy.symm
                  subst this
                  exact hb y hmem
              exact ⟨by omega, h2⟩
          · have hout : peakScan threshold rearm minGap (val :: rest) i true last =
                peakScan threshold rearm minGap (rest.drop rt.length)
                  (i + (rt.length + 1)) false last := by
              simp [peakScan, hth, hacc, ← hrt, ← hpkdef]
            rw [hout]
            obtain ⟨ha, hb, hc⟩ := ih (rest.drop rt.length) hdroplen
              (i + (rt.length + 1)) false last
            exact ⟨fun x hx => le_trans (by omega) (ha x hx), hb, hc⟩
        · have hout : peakScan threshold rearm minGap (val :: rest) i true last =
              peakScan threshold rearm minGap rest (i + 1) true last := by
            simp [peakScan, hth]
          rw [hout]
          obtain ⟨ha, hb, hc⟩ := ih rest hrest (i + 1) true last
          exact ⟨fun x hx => le_trans (Nat.le_succ i) (ha x hx), hb, hc⟩

lemma peakScan_map_chains (threshold rearm : ℚ) (minGap : ℤ) (l : List ℚ)
    (i : ℕ) (armed : Bool) (last : ℤ) (d nq : ℚ) (hd : 0 < d) (hn : 0 < nq) :
    List.Chain' (· < ·)
      ((peakScan threshold rearm minGap l i armed last).map
        (fun idx : ℕ => (idx : ℚ) / nq * d)) ∧
    List.Chain' (fun a b : ℚ => (minGap : ℚ) * d / nq ≤ b - a)
      ((peakScan threshold rearm minGap l i armed last).map
        (fun idx : ℕ => (idx : ℚ) / nq * d)) := by
  obtain ⟨-, -, hchain⟩ :=
    peakScan_invariant threshold rearm minGap l.length l (le_refl _) i armed last
  constructor
  · rw [List.chain'_map]
    refine hchain.imp ?_
    rintro a b ⟨hab, -⟩
    have ha : (a : ℚ) < (b : ℚ) := by exact_mod_cast hab
    show (a : ℚ) / nq * d < (b : ℚ) / nq * d
    exact mul_lt_mul_of_pos_right ((div_lt_div_iff_of_pos_right hn).mpr ha) hd
  · rw [List.chain'_map]
    refine hchain.imp ?_
    rintro a b ⟨-, hgap⟩
    have hcast : (minGap : ℚ) ≤ (b : ℚ) - (a : ℚ) := by exact_mod_cast hgap
    show (minGap : ℚ) * d / nq ≤ (b : ℚ) / nq * d - (a : ℚ) / nq * d
    have heq : (b : ℚ) / nq * d - (a : ℚ) / nq * d = ((b : ℚ) - (a : ℚ)) * d / nq := by
      ring
    rw [heq]
    exact (div_le_div_iff_of_pos_right hn).mpr (mul_le_mul_of_nonneg_right hcast hd.le)

/-- C3 fails as stated: on the envelope `[10, 0, 10]` over 3 seconds with
`thresholdPercent = 50` and `minGapSeconds = 5/2`, the peaks are reported at
0 s and 2 s, only 2 s apart — the truncation
`min_gap_samples = int(2.5 · 1) = 2` lets two peaks through that are closer
than `minGapSeconds`. -/
theorem C3_gap_counterexample :
    detect_peaks [10, 0, 10] 3 50 (5/2) none = [0, 2] ∧ ((2 : ℚ) - 0 < 5/2) := by
  constructor
  · norm_num [detect_peaks, listMax, listMin, pyTrunc, peakScan, scanMax]
  · norm_num

/-- C3 (amended): for `duration > 0` the returned peak times are strictly
ascending, and consecutive peaks differ by at least
`min_gap_samples · duration / len(envelope)` where
`min_gap_samples = int(minGapSeconds · len(envelope) / duration)` — the
sample-count form of the gap, which truncation can make smaller than
`minGapSeconds` itself.  For `duration ≤ 0` even strict ascent fails (all
returned times collapse to `≤ 0`, cf. C4). -/
theorem C3_peaks_ascending_amended (rms : List ℚ) (d th g : ℚ) (ro : Option ℚ)
    (hd : 0 < d) :
    List.Chain' (· < ·) (detect_peaks rms d th g ro) ∧
    List.Chain' (fun a b : ℚ =>
        ((pyTrunc (g * ((rms.length : ℚ) / d)) : ℤ) : ℚ) * d / (rms.length : ℚ) ≤ b - a)
      (detect_peaks rms d th g ro) := by
  match rms with
  | [] => exact ⟨by simp [detect_peaks], by simp [detect_peaks]⟩
  | r0 :: rrest =>
    by_cases hflat : listMax r0 rrest - listMin r0 rrest ≤ 0
    · have hnil : detect_peaks (r0 :: rrest) d th g ro = [] := by
        simp [detect_peaks, hflat]
      rw [hnil]
      exact ⟨List.chain'_nil, List.chain'_nil⟩
    · have hn : (0 : ℚ) < (((r0 :: rrest).length : ℕ) : ℚ) := by
        simp only [List.length_cons]
        exact_mod_cast Nat.succ_pos rrest.length
      have hdet : detect_peaks (r0 :: rrest) d th g ro =
          (peakScan
              (listMin r0 rrest + (listMax r0 rrest - listMin r0 rrest) * th / 100)
              (listMin r0 rrest +
                (listMax r0 rrest - listMin r0 rrest) * (ro.getD (th * (7/10))) / 100)
              (pyTrunc (g * ((((rrest.length + 1 : ℕ) : ℚ)) / d)))
              (r0 :: rrest) 0 true
              (-(pyTrunc (g * ((((rrest.length + 1 : ℕ) : ℚ)) / d))))).map
            (fun idx : ℕ => (idx : ℚ) / (((rrest.length + 1 : ℕ) : ℚ)) * d) := by
        simp only [detect_peaks, hflat, if_neg, not_false_iff, if_pos hd]
      rw [hdet]
      have hn' : (0 : ℚ) < (((rrest.length + 1 : ℕ) : ℚ)) := by
        exact_mod_cast Nat.succ_pos rrest.length
      have hch := peakScan_map_chains
        (listMin r0 rrest + (listMax r0 rrest - listMin r0 rrest) * th / 100)
        (listMin r0 rrest +
          (listMax r0 rrest - listMin r0 rrest) * (ro.getD (th * (7/10))) / 100)
        (pyTrunc (g * ((((rrest.length + 1 : ℕ) : ℚ)) / d)))
        (r0 :: rrest) 0 true
        (-(pyTrunc (g * ((((rrest.length + 1 : ℕ) : ℚ)) / d))))
        d (((rrest.length + 1 : ℕ) : ℚ)) hd hn'
      refine ⟨hch.1, ?_⟩
      have hlen : (((r0 :: rrest).length : ℕ) : ℚ) = (((rrest.length + 1 : ℕ) : ℚ)) := by
        simp
      rw [hlen]
      exact hch.2

/-- Witness for the amended C3 on the counterexample envelope: the two peaks
at 0 s and 2 s are strictly ascending and at least
`int(2.5)·3/3 = 2` seconds apart. -/
theorem C3_peaks_ascending_amended_witness :
    List.Chain' (· < ·) (detect_peaks [10, 0, 10] 3 50 (5/2) none) ∧
    List.Chain' (fun a b : ℚ =>
        ((pyTrunc ((5/2) * ((([10, 0, 10] : List ℚ).length : ℚ) / 3)) : ℤ) : ℚ) * 3 /
            (([10, 0, 10] : List ℚ).length : ℚ) ≤ b - a)
      (detect_peaks [10, 0, 10] 3 50 (5/2) none) :=
  C3_peaks_ascending_amended [10, 0, 10] 3 50 (5/2) none (by norm_num)

/-! ## Commands (`core/history.py`)

Each `Command` subclass becomes one constructor carrying the data the Python
object stores at construction time.  Commands that mutate a `Note` in place
(`MoveNote(s)`, `ChangeLevel(s)`, `SnapNotes`) refer to the note through its
identity (`id`); commands that store `note.copy()` carry the copied value.
`execute`/`undo` are `execC`/`undoC`. -/

inductive Cmd where
  | addNote (n : MNote)
  | addNotes (ns : List MNote)
  | removeNote (stored : MNote)
  | removeNotes (stored : List MNote)
  | moveNote (noteId : ℕ) (oldTime newTime : ℚ) (oldType newType : Lane)
  | moveNotes (entries : List (ℕ × ℚ × ℚ × Lane × Lane))
  | changeLevel (noteId : ℕ) (oldLevel newLevel : ℤ)
  | changeLevels (entries : List (ℕ × ℤ)) (newLevel : ℤ)
  | snapNotes (entries : List (ℕ × ℚ × ℚ))
  | cleanupDuplicates (stored : List MNote)
  | patternEdit (toAdd toRemove : List MNote) (laneType : Lane)
  | composite (cs : List Cmd)

/-- In-place mutation `note.time = t; note.type = ty` of the note object with
identity `i` (every alias of it in the list changes). -/
def setTimeType (i : ℕ) (t : ℚ) (ty : Lane) (l : List MNote) : List MNote :=
  l.map (fun n => if n.id = i then { n with time := t, type := ty } else n)

/-- In-place mutation `note.time = t`. -/
def setTime (i : ℕ) (t : ℚ) (l : List MNote) : List MNote :=
  l.map (fun n => if n.id = i then { n with time := t } else n)

/-- In-place mutation `note.level = lv`. -/
def setLevel (i : ℕ) (lv : ℤ) (l : List MNote) : List MNote :=
  l.map (fun n => if n.id = i then { n with level := lv } else n)

/-- The `PatternEditCommand` removal loop for one note: remove the first
existing note whose rounded time and lane match, if any. -/
def eraseRounded (note : MNote) (l : List MNote) : List MNote :=
  l.eraseP (fun ex => decide (round3 ex.time = round3 note.time) &&
    decide (ex.type = note.type))

mutual

/-- `command.execute()` for each variant. -/
def execC : Cmd → Beatmap → Beatmap
  | .addNote n, b => add_note b n
  | .addNotes ns, b => ns.foldl add_note b
  | .removeNote n, b => remove_note b n
  | .removeNotes ns, b => remove_notes b ns
  | .moveNote i _ newT _ newTy, b =>
    { b with notes := sortNotes (setTimeType i newT newTy b.notes), dirty := true }
  | .moveNotes es, b =>
    { b with
      notes := sortNotes (es.foldl (fun l e => setTimeType e.1 e.2.2.1 e.2.2.2.2 l) b.notes),
      dirty := true }
  | .changeLevel i _ newLv, b => { b with notes := setLevel i newLv b.notes, dirty := true }
  | .changeLevels es newLv, b =>
    { b with notes := es.foldl (fun l e => setLevel e.1 newLv l) b.notes, dirty := true }
  | .snapNotes es, b =>
    { b with
      notes := sortNotes (es.foldl (fun l e => setTime e.1 e.2.2 l) b.notes),
      dirty := true }
  | .cleanupDuplicates ns, b => remove_notes b ns
  | .patternEdit toAdd toRemove _, b =>
    { b with
      notes := sortNotes ((toRemove.foldl (fun l note => eraseRounded note l) b.notes) ++
        toAdd.map (fun n => { n with selected := true })),
      dirty := true }
  | .composite cs, b => execCList cs b

/-- `CompositeCommand.execute`: run sub-commands in order. -/
def execCList : List Cmd → Beatmap → Beatmap
  | [], b => b
  | c :: cs, b => execCList cs (execC c b)

end

mutual

/-- `command.undo()` for each variant. -/
def undoC : Cmd → Beatmap → Beatmap
  | .addNote n, b => remove_note b n
  | .addNotes ns, b => remove_notes b ns
  | .removeNote n, b => add_note b n
  | .removeNotes ns, b => ns.foldl add_note b
  | .moveNote i oldT _ oldTy _, b =>
    { b with notes := sortNotes (setTimeType i oldT oldTy b.notes), dirty := true }
  | .moveNotes es, b =>
    { b with
      notes := sortNotes (es.foldl (fun l e => setTimeType e.1 e.2.1 e.2.2.2.1 l) b.notes),
      dirty := true }
  | .changeLevel i oldLv _, b => { b with notes := setLevel i oldLv b.notes, dirty := true }
  | .changeLevels es _, b =>
    { b with notes := es.foldl (fun l e => setLevel e.1 e.2 l) b.notes, dirty := true }
  | .snapNotes es, b =>
    { b with
      notes := sortNotes (es.foldl (fun l e => setTime e.1 e.2.1 l) b.notes),
      dirty := true }
  | .cleanupDuplicates ns, b => ns.foldl add_note b
  | .patternEdit toAdd toRemove _, b =>
    { b with
      notes := sortNotes ((toAdd.foldl (fun l note => eraseRounded note l) b.notes) ++
        toRemove.map (fun n => { n with selected := true })),
      dirty := true }
  | .composite cs, b => undoCListRev cs b

/-- `CompositeCommand.undo`: run sub-command undos in reverse order. -/
def undoCListRev : List Cmd → Beatmap → Beatmap
  | [], b => b
  | c :: cs, b => undoC c (undoCListRev cs b)

end

/-! ### Sortedness preservation (C6) -/

lemma sortNotes_sorted (l : List MNote) : (sortNotes l).Sorted timeLe :=
  List.sorted_insertionSort timeLe l

lemma sorted_eraseP (p : MNote → Bool) {l : List MNote} (h : l.Sorted timeLe) :
    (l.eraseP p).Sorted timeLe :=
  List.Pairwise.sublist (List.eraseP_sublist l) h

lemma sorted_removeOne {l : List MNote} (n : MNote) (h : l.Sorted timeLe) :
    (removeOne l n).Sorted timeLe := by
  unfold removeOne
  by_cases hc : l.any (veqb n)
  · rw [if_pos hc]; exact sorted_eraseP _ h
  · rw [if_neg hc]; exact h

lemma sorted_foldl_removeOne (ns : List MNote) :
    ∀ {l : List MNote}, l.Sorted timeLe → (ns.foldl removeOne l).Sorted timeLe := by
  induction ns with
  | nil => intro l h; exact h
  | cons n ns ih => intro l h; exact ih (sorted_removeOne n h)

lemma sorted_remove_note (b : Beatmap) (n : MNote) (h : b.notes.Sorted timeLe) :
    (remove_note b n).notes.Sorted timeLe := by
  unfold remove_note
  by_cases hc : b.notes.any (veqb n)
  · rw [if_pos hc]; exact sorted_eraseP _ h
  · rw [if_neg hc]; exact h

lemma sorted_foldl_add_note (ns : List MNote) :
    ∀ b : Beatmap, ns ≠ [] → (ns.foldl add_note b).notes.Sorted timeLe := by
  induction ns with
  | nil => intro b h; exact absurd rfl h
  | cons n ns ih =>
    intro b _
    show ((ns.foldl add_note (add_note b n)).notes).Sorted timeLe
    match ns with
    | [] => exact sortNotes_sorted _
    | m :: ms => exact ih (add_note b n) (by simp)

/-- `setLevel` only touches levels, so any time-sortedness is preserved. -/
lemma sorted_setLevel (i : ℕ) (lv : ℤ) {l : List MNote} (h : l.Sorted timeLe) :
    (setLevel i lv l).Sorted timeLe := by
  unfold setLevel
  rw [List.Sorted, List.pairwise_map]
  refine h.imp ?_
  intro a c hac
  show timeLe (if a.id = i then { a with level := lv } else a)
    (if c.id = i then { c with level := lv } else c)
  by_cases ha : a.id = i <;> by_cases hc : c.id = i <;>
    simp only [ha, hc, if_pos, if_neg, not_false_iff] <;> exact hac

lemma sorted_foldl_setLevel {es : List (ℕ × ℤ)} (f : ℕ × ℤ → ℕ) (g : ℕ × ℤ → ℤ) :
    ∀ {l : List MNote}, l.Sorted timeLe →
      (es.foldl (fun l e => setLevel (f e) (g e) l) l).Sorted timeLe := by
  induction es with
  | nil => intro l h; exact h
  | cons e es ih => intro l h; exact ih (sorted_setLevel (f e) (g e) h)

lemma sorted_foldl_eraseRounded (ns : List MNote) :
    ∀ {l : List MNote}, l.Sorted timeLe →
      (ns.foldl (fun l note => eraseRounded note l) l).Sorted timeLe := by
  induction ns with
  | nil => intro l h; exact h
  | cons n ns ih => intro l h; exact ih (sorted_eraseP _ h)

mutual

lemma execC_sorted (c : Cmd) :
    ∀ b : Beatmap, b.notes.Sorted timeLe → (execC c b).notes.Sorted timeLe := by
  match c with
  | .addNote n => exact fun b _ => sortNotes_sorted _
  | .addNotes ns =>
    intro b h
    match ns with
    | [] => exact h
    | m :: ms => exact sorted_foldl_add_note (m :: ms) b (by simp)
  | .removeNote n => exact fun b h => sorted_remove_note b n h
  | .removeNotes ns => exact fun b h => sorted_foldl_removeOne ns h
  | .moveNote i a newT c d => exact fun b _ => sortNotes_sorted _
  | .moveNotes es => exact fun b _ => sortNotes_sorted _
  | .changeLevel i a newLv => exact fun b h => sorted_setLevel i newLv h
  | .changeLevels es newLv => exact fun b h => sorted_foldl_setLevel Prod.fst (fun _ => newLv) h
  | .snapNotes es => exact fun b _ => sortNotes_sorted _
  | .cleanupDuplicates ns => exact fun b h => sorted_foldl_removeOne ns h
  | .patternEdit toAdd toRemove lt => exact fun b _ => sortNotes_sorted _
  | .composite cs => exact fun b h => execCList_sorted cs b h

lemma execCList_sorted (cs : List Cmd) :
    ∀ b : Beatmap, b.notes.Sorted timeLe → (execCList cs b).notes.Sorted timeLe := by
  match cs with
  | [] => exact fun b h => h
  | c :: cs => exact fun b h => execCList_sorted cs (execC c b) (execC_sorted c b h)

end

mutual

lemma undoC_sorted (c : Cmd) :
    ∀ b : Beatmap, b.notes.Sorted timeLe → (undoC c b).notes.Sorted timeLe := by
  match c with
  | .addNote n => exact fun b h => sorted_remove_note b n h
  | .addNotes ns => exact fun b h => sorted_foldl_removeOne ns h
  | .removeNote n => exact fun b _ => sortNotes_sorted _
  | .removeNotes ns =>
    intro b h
    match ns with
    | [] => exact h
    | m :: ms => exact sorted_foldl_add_note (m :: ms) b (by simp)
  | .moveNote i oldT a oldTy c => exact fun b _ => sortNotes_sorted _
  | .moveNotes es => exact fun b _ => sortNotes_sorted _
  | .changeLevel i oldLv a => exact fun b h => sorted_setLevel i oldLv h
  | .changeLevels es newLv => exact fun b h => sorted_foldl_setLevel Prod.fst Prod.snd h
  | .snapNotes es => exact fun b _ => sortNotes_sorted _
  | .cleanupDuplicates ns =>
    intro b h
    match ns with
    | [] => exact h
    | m :: ms => exact sorted_foldl_add_note (m :: ms) b (by simp)
  | .patternEdit toAdd toRemove lt => exact fun b _ => sortNotes_sorted _
  | .composite cs => exact fun b h => undoCListRev_sorted cs b h

lemma undoCListRev_sorted (cs : List Cmd) :
    ∀ b : Beatmap, b.notes.Sorted timeLe → (undoCListRev cs b).notes.Sorted timeLe := by
  match cs with
  | [] => exact fun b h => h
  | c :: cs => exact fun b h => undoC_sorted c (undoCListRev cs b) (undoCListRev_sorted cs b h)

end

/-- C6: every mutating operation — `add_note`, `remove_note`, `remove_notes`,
`set_notes`, `clear`, and `execute()`/`undo()` of every `Command` variant
(`Composite` included) — maps a time-sorted note sequence to a time-sorted
note sequence. -/
theorem C6_sorted_invariant :
    (∀ b n, b.notes.Sorted timeLe → (add_note b n).notes.Sorted timeLe) ∧
    (∀ b n, b.notes.Sorted timeLe → (remove_note b n).notes.Sorted timeLe) ∧
    (∀ b ns, b.notes.Sorted timeLe → (remove_notes b ns).notes.Sorted timeLe) ∧
    (∀ b ns, b.notes.Sorted timeLe → (set_notes b ns).notes.Sorted timeLe) ∧
    (∀ b : Beatmap, b.notes.Sorted timeLe → b.clear.notes.Sorted timeLe) ∧
    (∀ (c : Cmd) (b : Beatmap), b.notes.Sorted timeLe →
      (execC c b).notes.Sorted timeLe ∧ (undoC c b).notes.Sorted timeLe) :=
  ⟨fun _ _ _ => sortNotes_sorted _,
   fun b n h => sorted_remove_note b n h,
   fun _ ns h => sorted_foldl_removeOne ns h,
   fun _ _ _ => sortNotes_sorted _,
   fun _ _ => List.sorted_nil,
   fun c b h => ⟨execC_sorted c b h, undoC_sorted c b h⟩⟩

/-- Witness for C6: a concrete sorted two-note beatmap stays sorted under a
`MoveNoteCommand`'s execute and undo. -/
theorem C6_sorted_invariant_witness :
    (execC (.moveNote 0 1 2 Lane.base Lane.base)
      ⟨{}, [⟨1, 1, Lane.base, false, 0⟩, ⟨1, 2, Lane.base, false, 1⟩], false⟩).notes.Sorted
        timeLe ∧
    (undoC (.moveNote 0 1 2 Lane.base Lane.base)
      ⟨{}, [⟨1, 1, Lane.base, false, 0⟩, ⟨1, 2, Lane.base, false, 1⟩], false⟩).notes.Sorted
        timeLe :=
  (C6_sorted_invariant.2.2.2.2.2 (.moveNote 0 1 2 Lane.base Lane.base)
    ⟨{}, [⟨1, 1, Lane.base, false, 0⟩, ⟨1, 2, Lane.base, false, 1⟩], false⟩
    (by norm_num [List.sorted_cons, timeLe]))

/-! ## C1: serialized form after execute-all / undo-all

The commands whose execute/undo work purely on note values (no in-place
mutation through an object reference) are `AddNote(s)`, `RemoveNote(s)` and
`CleanupDuplicates`.  Their effect on the multiset of `(time, level, lane)`
projections of the note list is a function of that multiset, which drives the
induction below. -/

/-- The multiset of `(time, level, lane)` projections of a note list — what the
serialized form determines up to order. -/
def projM (l : List MNote) : Multiset (ℚ × ℤ × Lane) := (l.map projNote : List _)

/-- The command variants whose execute/undo act by value only. -/
def isValueCmd : Cmd → Bool
  | .addNote _ => true
  | .addNotes _ => true
  | .removeNote _ => true
  | .removeNotes _ => true
  | .cleanupDuplicates _ => true
  | _ => false

/-- Multiset effect of removing the first `==`-equal occurrence if present. -/
def mRemove (n : MNote) (m : Multiset (ℚ × ℤ × Lane)) : Multiset (ℚ × ℤ × Lane) :=
  if projNote n ∈ m then m.erase (projNote n) else m

/-- Multiset semantics of `execute()` for value commands (identity elsewhere;
only used under `isValueCmd`). -/
def mExec : Cmd → Multiset (ℚ × ℤ × Lane) → Multiset (ℚ × ℤ × Lane)
  | .addNote n, m => projNote n ::ₘ m
  | .addNotes ns, m => ns.foldl (fun m n => projNote n ::ₘ m) m
  | .removeNote n, m => mRemove n m
  | .removeNotes ns, m => ns.foldl (fun m n => mRemove n m) m
  | .cleanupDuplicates ns, m => ns.foldl (fun m n => mRemove n m) m
  | _, m => m

/-- Multiset semantics of `undo()` for value commands. -/
def mUndo : Cmd → Multiset (ℚ × ℤ × Lane) → Multiset (ℚ × ℤ × Lane)
  | .addNote n, m => mRemove n m
  | .addNotes ns, m => ns.foldl (fun m n => mRemove n m) m
  | .removeNote n, m => projNote n ::ₘ m
  | .removeNotes ns, m => ns.foldl (fun m n => projNote n ::ₘ m) m
  | .cleanupDuplicates ns, m => ns.foldl (fun m n => projNote n ::ₘ m) m
  | _, m => m

lemma veqb_iff_proj (a b : MNote) : veqb a b = true ↔ projNote a = projNote b := by
  unfold veqb projNote
  constructor
  · intro h
    simp only [Bool.and_eq_true, decide_eq_true_eq] at h
    exact Prod.ext h.1.1 (Prod.ext h.1.2 h.2)
  · intro h
    have h1 : a.time = b.time := congrArg Prod.fst h
    have h2 : a.level = b.level := congrArg (fun p => p.2.1) h
    have h3 : a.type = b.type := congrArg (fun p => p.2.2) h
    simp [h1, h2, h3]

lemma projM_sortNotes (l : List MNote) : projM (sortNotes l) = projM l := by
  unfold projM
  rw [Multiset.coe_eq_coe]
  exact (List.perm_insertionSort timeLe l).map projNote

lemma projM_append (l₁ l₂ : List MNote) : projM (l₁ ++ l₂) = projM l₁ + projM l₂ := by
  unfold projM
  rw [List.map_append, Multiset.coe_add]

lemma projM_add_note (b : Beatmap) (n : MNote) :
    projM (add_note b n).notes = projNote n ::ₘ projM b.notes := by
  show projM (sortNotes (b.notes ++ [n])) = _
  rw [projM_sortNotes, projM_append]
  show projM b.notes + (↑[projNote n] : Multiset _) = _
  rw [← Multiset.cons_coe, Multiset.coe_nil]
  rw [add_comm, Multiset.cons_add, zero_add]

lemma map_eraseP_veqb (n : MNote) (l : List MNote) :
    (((l.eraseP (veqb n)).map projNote : List _) : Multiset (ℚ × ℤ × Lane)) =
      ((l.map projNote : List _) : Multiset (ℚ × ℤ × Lane)).erase (projNote n) := by
  induction l with
  | nil => rfl
  | cons x xs ih =>
    by_cases h : veqb n x = true
    · rw [List.eraseP_cons_of_pos h]
      have hx : projNote x = projNote n := ((veqb_iff_proj n x).mp h).symm
      rw [List.map_cons, ← Multiset.cons_coe, hx, Multiset.erase_cons_head]
    · have hne : projNote x ≠ projNote n := fun hc =>
        h ((veqb_iff_proj n x).mpr hc.symm)
      rw [List.eraseP_cons_of_neg h, List.map_cons, List.map_cons,
        ← Multiset.cons_coe, ← Multiset.cons_coe, Multiset.erase_cons_tail _ hne, ih]

lemma any_veqb_iff (n : MNote) (l : List MNote) :
    l.any (veqb n) = true ↔ projNote n ∈ l.map projNote := by
  rw [List.any_eq_true]
  constructor
  · rintro ⟨x, hx, hveq⟩
    rw [List.mem_map]
    exact ⟨x, hx, ((veqb_iff_proj n x).mp hveq).symm⟩
  · intro h
    rw [List.mem_map] at h
    obtain ⟨x, hx, hpx⟩ := h
    exact ⟨x, hx, (veqb_iff_proj n x).mpr hpx.symm⟩

lemma projM_remove_note (b : Beatmap) (n : MNote) :
    projM (remove_note b n).notes = mRemove n (projM b.notes) := by
  unfold remove_note mRemove
  by_cases h : b.notes.any (veqb n) = true
  · rw [if_pos h]
    have hmem : projNote n ∈ projM b.notes := by
      rw [projM, Multiset.mem_coe]
      exact (any_veqb_iff n b.notes).mp h
    rw [if_pos hmem]
    show projM (b.notes.eraseP (veqb n)) = _
    exact map_eraseP_veqb n b.notes
  · rw [if_neg h]
    have hmem : projNote n ∉ projM b.notes := by
      rw [projM, Multiset.mem_coe]
      intro hc
      exact h ((any_veqb_iff n b.notes).mpr hc)
    rw [if_neg hmem]

lemma projM_removeOne (l : List MNote) (n : MNote) :
    projM (removeOne l n) = mRemove n (projM l) := by
  have := projM_remove_note ⟨{}, l, false⟩ n
  unfold remove_note at this
  unfold removeOne
  by_cases h : l.any (veqb n) = true
  · rw [if_pos h] at this ⊢
    exact this
  · rw [if_neg h] at this ⊢
    exact this

lemma projM_foldl_removeOne (ns : List MNote) :
    ∀ l : List MNote, projM (ns.foldl removeOne l) =
      ns.foldl (fun m n => mRemove n m) (projM l) := by
  induction ns with
  | nil => intro l; rfl
  | cons n ns ih =>
    intro l
    show projM (ns.foldl removeOne (removeOne l n)) = _
    rw [ih (removeOne l n), projM_removeOne]
    rfl

lemma projM_foldl_add_note (ns : List MNote) :
    ∀ b : Beatmap, projM (ns.foldl add_note b).notes =
      ns.foldl (fun m n => projNote n ::ₘ m) (projM b.notes) := by
  induction ns with
  | nil => intro b; rfl
  | cons n ns ih =>
    intro b
    show projM (ns.foldl add_note (add_note b n)).notes = _
    rw [ih (add_note b n), projM_add_note]
    rfl

/-- For value commands, the projection multiset of `execute()` is computed by
`mExec`. -/
lemma execC_projM (c : Cmd) (hval : isValueCmd c = true) (b : Beatmap) :
    projM (execC c b).notes = mExec c (projM b.notes) := by
  match c with
  | .addNote n => exact projM_add_note b n
  | .addNotes ns => exact projM_foldl_add_note ns b
  | .removeNote n => exact projM_remove_note b n
  | .removeNotes ns => exact projM_foldl_removeOne ns b.notes
  | .cleanupDuplicates ns => exact projM_foldl_removeOne ns b.notes

/-- For value commands, the projection multiset of `undo()` is computed by
`mUndo`. -/
lemma undoC_projM (c : Cmd) (hval : isValueCmd c = true) (b : Beatmap) :
    projM (undoC c b).notes = mUndo c (projM b.notes) := by
  match c with
  | .addNote n => exact projM_remove_note b n
  | .addNotes ns => exact projM_foldl_removeOne ns b.notes
  | .removeNote n => exact projM_add_note b n
  | .removeNotes ns => exact projM_foldl_add_note ns b
  | .cleanupDuplicates ns => exact projM_foldl_add_note ns b

lemma foldl_cons_eq (ns : List MNote) :
    ∀ m : Multiset (ℚ × ℤ × Lane),
      ns.foldl (fun m n => projNote n ::ₘ m) m = m + ↑(ns.map projNote) := by
  induction ns with
  | nil => intro m; simp
  | cons n ns ih =>
    intro m
    show ns.foldl (fun m n => projNote n ::ₘ m) (projNote n ::ₘ m) = _
    rw [ih (projNote n ::ₘ m), List.map_cons, ← Multiset.cons_coe,
      Multiset.cons_add, Multiset.add_cons]

lemma cons_le_erase {a : ℚ × ℤ × Lane} {s t : Multiset (ℚ × ℤ × Lane)}
    (h : a ::ₘ t ≤ s) : t ≤ s.erase a :=
  calc t = (a ::ₘ t).erase a := (Multiset.erase_cons_head a t).symm
    _ ≤ s.erase a := Multiset.erase_le_erase a h

lemma foldl_mRemove_of_le (ns : List MNote) :
    ∀ m : Multiset (ℚ × ℤ × Lane), (↑(ns.map projNote) : Multiset _) ≤ m →
      ns.foldl (fun m n => mRemove n m) m = m - ↑(ns.map projNote) := by
  induction ns with
  | nil => intro m _; simp
  | cons n ns ih =>
    intro m h
    rw [List.map_cons, ← Multiset.cons_coe] at h
    have hmem : projNote n ∈ m := Multiset.mem_of_le h (Multiset.mem_cons_self _ _)
    show ns.foldl (fun m n => mRemove n m) (mRemove n m) = _
    rw [show mRemove n m = m.erase (projNote n) from if_pos hmem,
      ih (m.erase (projNote n)) (cons_le_erase h), List.map_cons, ← Multiset.cons_coe,
      Multiset.sub_cons]

/-- The per-command precondition under which `undo()` restores the projection
multiset: any removed note value must be present. -/
def wf1 : Cmd → Multiset (ℚ × ℤ × Lane) → Prop
  | .removeNote n, m => projNote n ∈ m
  | .removeNotes ns, m => (↑(ns.map projNote) : Multiset _) ≤ m
  | .cleanupDuplicates ns, m => (↑(ns.map projNote) : Multiset _) ≤ m
  | _, _ => True

/-- Sequential well-formedness: each command's precondition holds in the state
it executes in. -/
def wfseq : List Cmd → Multiset (ℚ × ℤ × Lane) → Prop
  | [], _ => True
  | c :: cs, m => wf1 c m ∧ wfseq cs (mExec c m)

lemma mUndo_mExec (c : Cmd) (hval : isValueCmd c = true) (m : Multiset (ℚ × ℤ × Lane))
    (h : wf1 c m) : mUndo c (mExec c m) = m := by
  match c with
  | .addNote n =>
    show mRemove n (projNote n ::ₘ m) = m
    rw [mRemove, if_pos (Multiset.mem_cons_self _ _), Multiset.erase_cons_head]
  | .addNotes ns =>
    show List.foldl (fun m n => mRemove n m) (List.foldl (fun m n => projNote n ::ₘ m) m ns) ns = m
    rw [foldl_cons_eq, foldl_mRemove_of_le ns _ (Multiset.le_add_left _ _),
      add_tsub_cancel_right]
  | .removeNote n =>
    have h' : projNote n ∈ m := h
    show projNote n ::ₘ mRemove n m = m
    rw [mRemove, if_pos h']
    exact Multiset.cons_erase h'
  | .removeNotes ns =>
    have h' : (↑(ns.map projNote) : Multiset _) ≤ m := h
    show List.foldl (fun m n => projNote n ::ₘ m) (List.foldl (fun m n => mRemove n m) m ns) ns = m
    rw [foldl_mRemove_of_le ns m h', foldl_cons_eq]
    exact tsub_add_cancel_of_le h'
  | .cleanupDuplicates ns =>
    have h' : (↑(ns.map projNote) : Multiset _) ≤ m := h
    show List.foldl (fun m n => projNote n ::ₘ m) (List.foldl (fun m n => mRemove n m) m ns) ns = m
    rw [foldl_mRemove_of_le ns m h', foldl_cons_eq]
    exact tsub_add_cancel_of_le h'

/-- Executing a sequence of value commands and undoing in reverse order
restores the `(time, level, lane)` multiset whenever every removal's target is
present when it runs. -/
lemma seq_projM_restore (cmds : List Cmd) :
    ∀ b : Beatmap, (∀ c ∈ cmds, isValueCmd c = true) → wfseq cmds (projM b.notes) →
      projM (undoCListRev cmds (execCList cmds b)).notes = projM b.notes := by
  induction cmds with
  | nil => intro b _ _; rfl
  | cons c cs ih =>
    intro b hval hwf
    obtain ⟨h1, h2⟩ := hwf
    have hvc : isValueCmd c = true := hval c (List.mem_cons_self c cs)
    have hvcs : ∀ c' ∈ cs, isValueCmd c' = true := fun c' hc' =>
      hval c' (List.mem_cons_of_mem _ hc')
    show projM (undoC c (undoCListRev cs (execCList cs (execC c b)))).notes = _
    rw [undoC_projM c hvc]
    have h2' : wfseq cs (projM (execC c b).notes) := by
      rw [execC_projM c hvc]
      exact h2
    rw [ih (execC c b) hvcs h2', execC_projM c hvc]
    exact mUndo_mExec c hvc _ h1

lemma remove_note_meta (b : Beatmap) (n : MNote) : (remove_note b n).meta = b.meta := by
  unfold remove_note
  by_cases h : b.notes.any (veqb n) <;> simp [h]

lemma foldl_add_note_meta (ns : List MNote) :
    ∀ b : Beatmap, (ns.foldl add_note b).meta = b.meta := by
  induction ns with
  | nil => intro b; rfl
  | cons n ns ih => intro b; exact ih (add_note b n)

mutual

lemma execC_meta (c : Cmd) : ∀ b : Beatmap, (execC c b).meta = b.meta := by
  match c with
  | .addNote n => exact fun b => rfl
  | .addNotes ns => exact fun b => foldl_add_note_meta ns b
  | .removeNote n => exact fun b => remove_note_meta b n
  | .removeNotes ns => exact fun b => rfl
  | .moveNote i a c d e => exact fun b => rfl
  | .moveNotes es => exact fun b => rfl
  | .changeLevel i a c => exact fun b => rfl
  | .changeLevels es a => exact fun b => rfl
  | .snapNotes es => exact fun b => rfl
  | .cleanupDuplicates ns => exact fun b => rfl
  | .patternEdit x y z => exact fun b => rfl
  | .composite cs => exact fun b => execCList_meta cs b

lemma execCList_meta (cs : List Cmd) : ∀ b : Beatmap, (execCList cs b).meta = b.meta := by
  match cs with
  | [] => exact fun b => rfl
  | c :: cs => exact fun b => (execCList_meta cs (execC c b)).trans (execC_meta c b)

end

mutual

lemma undoC_meta (c : Cmd) : ∀ b : Beatmap, (undoC c b).meta = b.meta := by
  match c with
  | .addNote n => exact fun b => remove_note_meta b n
  | .addNotes ns => exact fun b => rfl
  | .removeNote n => exact fun b => rfl
  | .removeNotes ns => exact fun b => foldl_add_note_meta ns b
  | .moveNote i a c d e => exact fun b => rfl
  | .moveNotes es => exact fun b => rfl
  | .changeLevel i a c => exact fun b => rfl
  | .changeLevels es a => exact fun b => rfl
  | .snapNotes es => exact fun b => rfl
  | .cleanupDuplicates ns => exact fun b => foldl_add_note_meta ns b
  | .patternEdit x y z => exact fun b => rfl
  | .composite cs => exact fun b => undoCListRev_meta cs b

lemma undoCListRev_meta (cs : List Cmd) : ∀ b : Beatmap, (undoCListRev cs b).meta = b.meta := by
  match cs with
  | [] => exact fun b => rfl
  | c :: cs => exact fun b => (undoC_meta c (undoCListRev cs b)).trans (undoCListRev_meta cs b)

end

/-- Time-sorted with pairwise-distinct times gives a strictly sorted
projection list. -/
lemma pairwise_fst_lt {l : List MNote} (hs : l.Sorted timeLe)
    (hn : (l.map (fun n => n.time)).Nodup) :
    (l.map projNote).Pairwise (fun p q : ℚ × ℤ × Lane => p.1 < q.1) := by
  rw [List.pairwise_map]
  rw [List.Nodup, List.pairwise_map] at hn
  refine (List.Pairwise.and hs hn).imp ?_
  rintro a b ⟨hle, hne⟩
  exact lt_of_le_of_ne hle hne

/-- Equal projection multisets of two time-sorted lists with distinct times
force equal projection lists. -/
lemma proj_lists_eq {l₁ l₂ : List MNote}
    (hp : ((l₁.map projNote : List _) : Multiset (ℚ × ℤ × Lane)) = (l₂.map projNote : List _))
    (hs₁ : l₁.Sorted timeLe) (hs₂ : l₂.Sorted timeLe)
    (hn₂ : (l₂.map (fun n => n.time)).Nodup) :
    l₁.map projNote = l₂.map projNote := by
  have hperm : (l₁.map projNote).Perm (l₂.map projNote) := Multiset.coe_eq_coe.mp hp
  have htimes : (l₁.map (fun n => n.time)).Perm (l₂.map (fun n => n.time)) := by
    have h := hperm.map (fun p : ℚ × ℤ × Lane => p.1)
    rw [List.map_map, List.map_map] at h
    exact h
  have hn₁ : (l₁.map (fun n => n.time)).Nodup := (htimes.nodup_iff).mpr hn₂
  haveI : IsAntisymm (ℚ × ℤ × Lane) (fun p q => p.1 < q.1) :=
    ⟨fun a b h1 h2 => absurd (lt_trans h1 h2) (lt_irrefl _)⟩
  exact List.eq_of_perm_of_sorted hperm (pairwise_fst_lt hs₁ hn₁) (pairwise_fst_lt hs₂ hn₂)

lemma execList_state_eq {C S : Type} (run : C → S → S) (cmds : List C) :
    ∀ sess : Session C S,
      (execList run cmds sess).state = cmds.foldl (fun s c => run c s) sess.state := by
  induction cmds with
  | nil => intro sess; rfl
  | cons c cs ih => intro sess; exact ih (histExecute run c sess)

lemma execCList_eq_foldl (cs : List Cmd) :
    ∀ b : Beatmap, execCList cs b = cs.foldl (fun b c => execC c b) b := by
  induction cs with
  | nil => intro b; rfl
  | cons c cs ih => intro b; exact ih (execC c b)

lemma undoRun_state {C S : Type} (unrun : C → S → S) (desc : C → String)
    (stack : List C) :
    ∀ (redo : List C) (m : ℕ) (s : S),
      (undoRun unrun desc stack.length ⟨⟨stack, redo, m⟩, s⟩).2.state =
        stack.foldl (fun s c => unrun c s) s := by
  induction stack with
  | nil => intro redo m s; rfl
  | cons c cs ih =>
    intro redo m s
    show (undoRun unrun desc (cs.length + 1) ⟨⟨c :: cs, redo, m⟩, s⟩).2.state = _
    show (undoRun unrun desc cs.length ⟨⟨cs, c :: redo, m⟩, unrun c s⟩).2.state = _
    exact ih (c :: redo) m (unrun c s)

lemma undoRun_state_sess {C S : Type} (unrun : C → S → S) (desc : C → String)
    (sess : Session C S) (k : ℕ) (hk : sess.hist.undoStack.length = k) :
    (undoRun unrun desc k sess).2.state =
      sess.hist.undoStack.foldl (fun s c => unrun c s) sess.state := by
  subst hk
  exact undoRun_state unrun desc sess.hist.undoStack sess.hist.redoStack
    sess.hist.maxSize sess.state

lemma undoCListRev_eq_foldl_reverse (cs : List Cmd) :
    ∀ b : Beatmap, undoCListRev cs b = cs.reverse.foldl (fun b c => undoC c b) b := by
  induction cs with
  | nil => intro b; rfl
  | cons c cs ih =>
    intro b
    rw [List.reverse_cons, List.foldl_append]
    show undoC c (undoCListRev cs b) = _
    rw [ih b]
    rfl

/-- C1 fails as stated: on a beatmap with two notes sharing time 1 s (levels 1
and 2), executing a single `MoveNoteCommand` (move the level-1 note to 2 s)
through `History` and undoing it leaves the two equal-time notes transposed,
so the serialized form differs byte-wise (the `notes` array order changed). -/
theorem C1_serialized_roundtrip_counterexample :
    beatmapToDict ((undoRun undoC (fun _ => "") 1
        (execList execC [Cmd.moveNote 0 1 2 Lane.base Lane.base]
          ⟨⟨[], [], 100⟩,
            ⟨{}, [⟨1, 1, Lane.base, false, 0⟩, ⟨1, 2, Lane.base, false, 1⟩], false⟩⟩)).2.state) ≠
      beatmapToDict ⟨{}, [⟨1, 1, Lane.base, false, 0⟩, ⟨1, 2, Lane.base, false, 1⟩], false⟩ := by
  have hmove : execC (Cmd.moveNote 0 1 2 Lane.base Lane.base)
      ⟨{}, [⟨1, 1, Lane.base, false, 0⟩, ⟨1, 2, Lane.base, false, 1⟩], false⟩ =
      ⟨{}, [⟨1, 2, Lane.base, false, 1⟩, ⟨2, 1, Lane.base, false, 0⟩], true⟩ := by
    norm_num [execC, setTimeType, sortNotes, List.insertionSort, List.orderedInsert, timeLe]
  have hundo : undoC (Cmd.moveNote 0 1 2 Lane.base Lane.base)
      ⟨{}, [⟨1, 2, Lane.base, false, 1⟩, ⟨2, 1, Lane.base, false, 0⟩], true⟩ =
      ⟨{}, [⟨1, 2, Lane.base, false, 1⟩, ⟨1, 1, Lane.base, false, 0⟩], true⟩ := by
    norm_num [undoC, setTimeType, sortNotes, List.insertionSort, List.orderedInsert, timeLe]
  obtain ⟨ha, -⟩ := execList_stack execC [Cmd.moveNote 0 1 2 Lane.base Lane.base]
    ⟨⟨[], [], 100⟩,
      ⟨{}, [⟨1, 1, Lane.base, false, 0⟩, ⟨1, 2, Lane.base, false, 1⟩], false⟩⟩ (by simp)
  have hstack : (execList execC [Cmd.moveNote 0 1 2 Lane.base Lane.base]
      ⟨⟨[], [], 100⟩,
        ⟨{}, [⟨1, 1, Lane.base, false, 0⟩, ⟨1, 2, Lane.base, false, 1⟩],
          false⟩⟩).hist.undoStack = [Cmd.moveNote 0 1 2 Lane.base Lane.base] := by
    rw [ha]
    rfl
  have hstate : (execList execC [Cmd.moveNote 0 1 2 Lane.base Lane.base]
      ⟨⟨[], [], 100⟩,
        ⟨{}, [⟨1, 1, Lane.base, false, 0⟩, ⟨1, 2, Lane.base, false, 1⟩],
          false⟩⟩).state =
      execC (Cmd.moveNote 0 1 2 Lane.base Lane.base)
        ⟨{}, [⟨1, 1, Lane.base, false, 0⟩, ⟨1, 2, Lane.base, false, 1⟩], false⟩ := by
    rw [execList_state_eq]
    rfl
  rw [undoRun_state_sess undoC (fun _ => "") _ 1 (by rw [hstack]; rfl), hstack, hstate]
  show beatmapToDict (undoC (Cmd.moveNote 0 1 2 Lane.base Lane.base)
    (execC (Cmd.moveNote 0 1 2 Lane.base Lane.base)
      ⟨{}, [⟨1, 1, Lane.base, false, 0⟩, ⟨1, 2, Lane.base, false, 1⟩], false⟩)) ≠ _
  rw [hmove, hundo]
  norm_num [beatmapToDict, metaToDict, noteToDict, round3, round1, pyRoundInt]

/-- C1 (amended): restrict to the value-based commands (`AddNote(s)`,
`RemoveNote(s)`, `CleanupDuplicates`), require every removed note value to be
present when its command executes, the sequence to fit in the History bound,
and no two notes of the Beatmap to share a time; then executing the sequence
through `History` and undoing every command in reverse order restores the
serialized form byte-identically.  (Without distinct times the serialized
multiset is still restored, but equal-time notes may be reordered; with
reference-based commands — Move/ChangeLevel/Snap — interleaved with
copy-reinserting undos, even the multiset can change.) -/
theorem C1_serialized_roundtrip_amended
    (cmds : List Cmd) (b : Beatmap) (N : ℕ) (desc : Cmd → String)
    (hlen : cmds.length ≤ N)
    (hval : ∀ c ∈ cmds, isValueCmd c = true)
    (hwf : wfseq cmds (projM b.notes))
    (hsorted : b.notes.Sorted timeLe)
    (hnodup : (b.notes.map (fun n => n.time)).Nodup) :
    beatmapToDict ((undoRun undoC desc cmds.length
        (execList execC cmds ⟨⟨[], [], N⟩, b⟩)).2.state) = beatmapToDict b := by
  have hstack : (execList execC cmds ⟨⟨[], [], N⟩, b⟩).hist.undoStack = cmds.reverse := by
    obtain ⟨ha, _⟩ := execList_stack execC cmds ⟨⟨[], [], N⟩, b⟩ (by simp)
    rw [ha]
    show (cmds.reverse ++ []).take N = _
    rw [List.append_nil]
    exact List.take_of_length_le (by rw [List.length_reverse]; exact hlen)
  have hklen : (execList execC cmds ⟨⟨[], [], N⟩, b⟩).hist.undoStack.length = cmds.length := by
    rw [hstack, List.length_reverse]
  have hstate : (execList execC cmds ⟨⟨[], [], N⟩, b⟩).state = execCList cmds b := by
    rw [execList_state_eq, execCList_eq_foldl]
  have hfin : (undoRun undoC desc cmds.length
      (execList execC cmds ⟨⟨[], [], N⟩, b⟩)).2.state =
      undoCListRev cmds (execCList cmds b) := by
    rw [undoRun_state_sess undoC desc _ cmds.length hklen, hstack, hstate,
      undoCListRev_eq_foldl_reverse]
  rw [hfin]
  have hproj := seq_projM_restore cmds b hval hwf
  have hsorted' : (undoCListRev cmds (execCList cmds b)).notes.Sorted timeLe :=
    undoCListRev_sorted cmds _ (execCList_sorted cmds b hsorted)
  have hlists := proj_lists_eq hproj hsorted' hsorted hnodup
  have hmeta : (undoCListRev cmds (execCList cmds b)).meta = b.meta :=
    (undoCListRev_meta cmds _).trans (execCList_meta cmds b)
  unfold beatmapToDict
  rw [hmeta]
  have hfactor : ∀ l : List MNote, l.map noteToDict =
      (l.map projNote).map (fun p : ℚ × ℤ × Lane => SerNote.mk (round3 p.1) p.2.1 p.2.2) := by
    intro l
    rw [List.map_map]
    rfl
  rw [hfactor, hfactor, hlists]

/-- Witness for the amended C1: add a note at 2 s then remove the note at 1 s,
then undo both through History — the serialized beatmap is restored exactly. -/
theorem C1_serialized_roundtrip_amended_witness :
    beatmapToDict ((undoRun undoC (fun _ => "") 2
        (execList execC [Cmd.addNote ⟨2, 1, Lane.drum, false, 5⟩,
            Cmd.removeNote ⟨1, 1, Lane.base, false, 9⟩]
          ⟨⟨[], [], 100⟩, ⟨{}, [⟨1, 1, Lane.base, false, 0⟩], false⟩⟩)).2.state) =
      beatmapToDict ⟨{}, [⟨1, 1, Lane.base, false, 0⟩], false⟩ :=
  C1_serialized_roundtrip_amended
    [Cmd.addNote ⟨2, 1, Lane.drum, false, 5⟩, Cmd.removeNote ⟨1, 1, Lane.base, false, 9⟩]
    ⟨{}, [⟨1, 1, Lane.base, false, 0⟩], false⟩ 100 (fun _ => "")
    (by decide) (by decide)
    ⟨trivial,
      (show projNote ⟨1, 1, Lane.base, false, 9⟩ ∈
          mExec (Cmd.addNote ⟨2, 1, Lane.drum, false, 5⟩)
            (projM [⟨1, 1, Lane.base, false, 0⟩]) by decide),
      trivial⟩
    (by decide) (by decide)

/-! ## C7: duplicate cleanup (`App._on_cleanup_duplicates` and
`CleanupDuplicatesCommand`)

The caller groups notes by rounded time (`defaultdict` keyed in first
occurrence order, each group in original note order), stable-sorts each group
by level, keeps the head and marks the rest for removal, then executes
`CleanupDuplicatesCommand` which removes them via `remove_notes`. -/

/-- The relation of `sorted(group, key=lambda n: n.level)`. -/
def levelLe (a b : MNote) : Prop := a.level ≤ b.level

instance : DecidableRel levelLe := fun a b => by unfold levelLe; infer_instance

/-- Python's stable `sorted(..., key=lambda n: n.level)`. -/
def sortByLevel (g : List MNote) : List MNote := g.insertionSort levelLe

/-- The key list of the `defaultdict`: first-occurrence order, no duplicates
(Python dict key order). -/
def dedupFirst : List ℚ → List ℚ
  | [] => []
  | t :: ts => t :: (dedupFirst ts).filter (fun r => decide (¬ r = t))

/-- One time group: the notes whose rounded time is `r`, in original order. -/
def groupAt (notes : List MNote) (r : ℚ) : List MNote :=
  notes.filter (fun n => decide (round3 n.time = r))

/-- The `notes_to_remove` list built by `_on_cleanup_duplicates`: per group in
key order, everything but the head of the level-stable-sorted group. -/
def notesToRemove (notes : List MNote) : List MNote :=
  ((dedupFirst (notes.map (fun n => round3 n.time))).map (fun r =>
    if 1 < (groupAt notes r).length then (sortByLevel (groupAt notes r)).drop 1
    else [])).join

/-- The whole `_on_cleanup_duplicates` flow on the beatmap: the two early
returns (no notes / no duplicates) leave it untouched, otherwise
`CleanupDuplicatesCommand` (which copies the list) is executed. -/
def cleanupRun (b : Beatmap) : Beatmap :=
  if b.notes = [] then b
  else if notesToRemove b.notes = [] then b
  else execC (Cmd.cleanupDuplicates ((notesToRemove b.notes).map MNote.copy)) b

/-- Second definition following the spec's words, for comparison: "within a
group, keep the lowest-level Note, or the first if levels tie" — the first
note of the group whose level is ≤ every other group member's level. -/
def specKeep (g : List MNote) : Option MNote :=
  g.find? (fun n => g.all (fun m => decide (n.level ≤ m.level)))

lemma find?_conj (q p : MNote → Bool) :
    ∀ (l : List MNote) (b : MNote), l.find? p = some b → q b = true →
      l.find? (fun x => q x && p x) = some b := by
  intro l
  induction l with
  | nil => intro b hf _; cases hf
  | cons a l ih =>
    intro b hf hq
    rw [List.find?_cons] at hf ⊢
    cases hpa : p a with
    | true =>
      rw [hpa] at hf
      have hab : a = b := by
        simpa using hf
      subst hab
      rw [hq]
      rfl
    | false =>
      rw [hpa] at hf
      rw [Bool.and_false]
      exact ih b hf hq

/-- The head of the stable level-sort is exactly the spec's "lowest level,
first on ties" choice. -/
lemma sortByLevel_head (g : List MNote) : (sortByLevel g).head? = specKeep g := by
  induction g with
  | nil => rfl
  | cons a l ih =>
    show (List.orderedInsert levelLe a (sortByLevel l)).head? = _
    match hs : sortByLevel l with
    | [] =>
      have hl : l = [] := by
        have := List.length_insertionSort levelLe l
        rw [show l.insertionSort levelLe = sortByLevel l from rfl, hs] at this
        exact List.eq_nil_of_length_eq_zero this.symm
      subst hl
      show (List.orderedInsert levelLe a []).head? = specKeep [a]
      show some a = _
      unfold specKeep
      rw [List.find?_cons]
      simp
    | b :: t =>
      rw [hs] at ih
      have hbfind : l.find? (fun n => l.all (fun m => decide (n.level ≤ m.level))) = some b := by
        unfold specKeep at ih
        exact ih.symm
      have hbmin0 := List.find?_some hbfind
      have hbmin : l.all (fun m => decide (b.level ≤ m.level)) = true := hbmin0
      have hbmem : b ∈ l := List.mem_of_find?_eq_some hbfind
      have hoi : List.orderedInsert levelLe a (b :: t) =
          if levelLe a b then a :: b :: t else b :: List.orderedInsert levelLe a t := rfl
      unfold specKeep
      by_cases hab : levelLe a b
      · rw [hoi, if_pos hab, List.find?_cons]
        have hall : (a :: l).all (fun m => decide (a.level ≤ m.level)) = true := by
          rw [List.all_cons]
          have h1 : decide (a.level ≤ a.level) = true := by simp
          have h2 : l.all (fun m => decide (a.level ≤ m.level)) = true := by
            rw [List.all_eq_true] at hbmin ⊢
            intro m hm
            have hb1 : b.level ≤ m.level := by simpa using hbmin m hm
            have hb2 : a.level ≤ b.level := hab
            simp only [decide_eq_true_eq]
            exact le_trans hb2 hb1
          rw [h1, h2]
          rfl
        rw [hall]
        rfl
      · rw [hoi, if_neg hab]
        have hba : decide (b.level ≤ a.level) = true := by
          simp only [decide_eq_true_eq]
          unfold levelLe at hab
          omega
        have hpa : (a :: l).all (fun m => decide (a.level ≤ m.level)) = false := by
          apply Bool.eq_false_iff.mpr
          intro hc
          rw [List.all_eq_true] at hc
          have hcb := hc b (List.mem_cons_of_mem a hbmem)
          rw [decide_eq_true_eq] at hcb
          exact hab hcb
        rw [List.find?_cons, hpa]
        have hconv : (fun n : MNote => (a :: l).all (fun m => decide (n.level ≤ m.level))) =
            (fun n : MNote => decide (n.level ≤ a.level) &&
              l.all (fun m => decide (n.level ≤ m.level))) := by
          funext n
          rw [List.all_cons]
        rw [hconv]
        exact (find?_conj (fun n => decide (n.level ≤ a.level))
          (fun n => l.all (fun m => decide (n.level ≤ m.level))) l b hbfind hba).symm

lemma mem_groupAt {notes : List MNote} {r : ℚ} {n : MNote} :
    n ∈ groupAt notes r ↔ n ∈ notes ∧ round3 n.time = r := by
  unfold groupAt
  rw [List.mem_filter]
  simp

lemma dedupFirst_nodup : ∀ ks : List ℚ, (dedupFirst ks).Nodup := by
  intro ks
  induction ks with
  | nil => exact List.nodup_nil
  | cons t ts ih =>
    refine List.Nodup.cons ?_ (List.Nodup.filter _ ih)
    intro hc
    have := List.of_mem_filter hc
    simp at this

lemma mem_dedupFirst : ∀ (ks : List ℚ) (r : ℚ), r ∈ dedupFirst ks ↔ r ∈ ks := by
  intro ks
  induction ks with
  | nil => intro r; rfl
  | cons t ts ih =>
    intro r
    show r ∈ t :: (dedupFirst ts).filter (fun r => decide (¬ r = t)) ↔ _
    rw [List.mem_cons, List.mem_cons]
    by_cases hrt : r = t
    · subst hrt
      simp
    · constructor
      · rintro (rfl | hmem)
        · exact Or.inl rfl
        · exact Or.inr ((ih r).mp (List.mem_of_mem_filter hmem))
      · rintro (rfl | hmem)
        · exact Or.inl rfl
        · refine Or.inr (List.mem_filter.mpr ⟨(ih r).mpr hmem, by simpa using hrt⟩)

lemma filter_join (p : MNote → Bool) : ∀ ls : List (List MNote),
    (ls.join).filter p = (ls.map (fun l => l.filter p)).join := by
  intro ls
  induction ls with
  | nil => rfl
  | cons l ls ih =>
    show (l ++ ls.join).filter p = l.filter p ++ _
    rw [List.filter_append, ih]

lemma join_single {g : ℚ → List MNote} {r : ℚ}
    (hother : ∀ r', r' ≠ r → g r' = []) :
    ∀ ks : List ℚ, ks.Nodup → (ks.map g).join = if r ∈ ks then g r else [] := by
  intro ks
  induction ks with
  | nil => intro _; simp
  | cons k ks ih =>
    intro hnd
    obtain ⟨hk, hnd'⟩ := List.nodup_cons.mp hnd
    show g k ++ (ks.map g).join = _
    by_cases hkr : k = r
    · subst hkr
      rw [ih hnd', if_neg hk, List.append_nil, if_pos (List.mem_cons_self k ks)]
    · rw [hother k hkr, List.nil_append, ih hnd']
      by_cases hrk : r ∈ ks
      · rw [if_pos hrk, if_pos (List.mem_cons_of_mem k hrk)]
      · rw [if_neg hrk, if_neg]
        intro hc
        rcases List.mem_cons.mp hc with h | h
        · exact hkr h.symm
        · exact hrk h

lemma mem_drop_sort_round3 {notes : List MNote} {r : ℚ} {n : MNote}
    (hn : n ∈ (sortByLevel (groupAt notes r)).drop 1) : round3 n.time = r := by
  have h1 : n ∈ sortByLevel (groupAt notes r) := List.mem_of_mem_drop hn
  have h2 : n ∈ groupAt notes r := (List.mem_insertionSort levelLe).mp h1
  exact (mem_groupAt.mp h2).2

lemma groupAt_eq_nil_of_not_mem {notes : List MNote} {r : ℚ}
    (h : r ∉ notes.map (fun n => round3 n.time)) : groupAt notes r = [] := by
  unfold groupAt
  rw [List.filter_eq_nil]
  intro n hn
  simp only [decide_eq_true_eq]
  intro hc
  exact h (List.mem_map.mpr ⟨n, hn, hc⟩)

lemma ntr_filter (notes : List MNote) (r : ℚ) :
    (notesToRemove notes).filter (fun n => decide (round3 n.time = r)) =
      if 1 < (groupAt notes r).length then (sortByLevel (groupAt notes r)).drop 1
      else [] := by
  unfold notesToRemove
  rw [filter_join, List.map_map]
  have hjoin := join_single
    (g := fun r' => ((if 1 < (groupAt notes r').length
      then (sortByLevel (groupAt notes r')).drop 1 else []).filter
        (fun n => decide (round3 n.time = r))))
    (r := r)
    (fun r' hr' => by
      show (if 1 < (groupAt notes r').length
        then (sortByLevel (groupAt notes r')).drop 1 else []).filter
          (fun n => decide (round3 n.time = r)) = []
      by_cases hg : 1 < (groupAt notes r').length
      · rw [if_pos hg, List.filter_eq_nil]
        intro n hn
        simp only [decide_eq_true_eq]
        intro hc
        exact hr' ((mem_drop_sort_round3 hn).symm.trans hc)
      · rw [if_neg hg]
        rfl)
    (dedupFirst (notes.map (fun n => round3 n.time))) (dedupFirst_nodup _)
  rw [show ((fun l => l.filter (fun n => decide (round3 n.time = r))) ∘
      (fun r' => if 1 < (groupAt notes r').length
        then (sortByLevel (groupAt notes r')).drop 1 else [])) =
      (fun r' => ((if 1 < (groupAt notes r').length
        then (sortByLevel (groupAt notes r')).drop 1 else []).filter
          (fun n => decide (round3 n.time = r)))) from rfl]
  rw [hjoin]
  have hself : (if 1 < (groupAt notes r).length
      then (sortByLevel (groupAt notes r)).drop 1 else []).filter
        (fun n => decide (round3 n.time = r)) =
      (if 1 < (groupAt notes r).length
        then (sortByLevel (groupAt notes r)).drop 1 else []) := by
    rw [List.filter_eq_self]
    intro n hn
    by_cases hg : 1 < (groupAt notes r).length
    · rw [if_pos hg] at hn
      simpa using mem_drop_sort_round3 hn
    · rw [if_neg hg] at hn
      cases hn
  by_cases hmem : r ∈ dedupFirst (notes.map (fun n => round3 n.time))
  · rw [if_pos hmem]
    exact hself
  · rw [if_neg hmem]
    have hnil : groupAt notes r = [] :=
      groupAt_eq_nil_of_not_mem (fun hc => hmem ((mem_dedupFirst _ r).mpr hc))
    rw [hnil]
    simp

lemma filter_erase_pos {p : (ℚ × ℤ × Lane) → Prop} [DecidablePred p]
    (a : ℚ × ℤ × Lane) (m : Multiset (ℚ × ℤ × Lane)) (ha : p a) :
    (m.erase a).filter p = (m.filter p).erase a := by
  ext x
  by_cases hx : x = a
  · subst hx
    rw [Multiset.count_filter, if_pos ha, Multiset.count_erase_self,
      Multiset.count_erase_self, Multiset.count_filter, if_pos ha]
  · rw [Multiset.count_filter, Multiset.count_erase_of_ne hx,
      Multiset.count_erase_of_ne hx, Multiset.count_filter]

lemma filter_erase_neg {p : (ℚ × ℤ × Lane) → Prop} [DecidablePred p]
    (a : ℚ × ℤ × Lane) (m : Multiset (ℚ × ℤ × Lane)) (ha : ¬ p a) :
    (m.erase a).filter p = m.filter p := by
  ext x
  by_cases hx : x = a
  · subst hx
    rw [Multiset.count_filter, if_neg ha, Multiset.count_filter, if_neg ha]
  · rw [Multiset.count_filter, Multiset.count_erase_of_ne hx, Multiset.count_filter]

lemma filter_mRemove (r : ℚ) (n : MNote) (m : Multiset (ℚ × ℤ × Lane)) :
    (mRemove n m).filter (fun p => round3 p.1 = r) =
      if round3 n.time = r then mRemove n (m.filter (fun p => round3 p.1 = r))
      else m.filter (fun p => round3 p.1 = r) := by
  unfold mRemove
  by_cases hnr : round3 n.time = r
  · rw [if_pos hnr]
    by_cases hmem : projNote n ∈ m
    · rw [if_pos hmem]
      have hpn : round3 (projNote n).1 = r := hnr
      have hmem' : projNote n ∈ m.filter (fun p => round3 p.1 = r) :=
        Multiset.mem_filter.mpr ⟨hmem, hpn⟩
      rw [if_pos hmem']
      exact filter_erase_pos (projNote n) m hpn
    · rw [if_neg hmem]
      have hmem' : projNote n ∉ m.filter (fun p => round3 p.1 = r) := fun hc =>
        hmem (Multiset.mem_filter.mp hc).1
      rw [if_neg hmem']
  · rw [if_neg hnr]
    by_cases hmem : projNote n ∈ m
    · rw [if_pos hmem]
      exact filter_erase_neg (projNote n) m (show ¬ round3 (projNote n).1 = r from hnr)
    · rw [if_neg hmem]

lemma filter_foldl_mRemove (r : ℚ) (ns : List MNote) :
    ∀ m : Multiset (ℚ × ℤ × Lane),
      (ns.foldl (fun m n => mRemove n m) m).filter (fun p => round3 p.1 = r) =
        (ns.filter (fun n => decide (round3 n.time = r))).foldl
          (fun m n => mRemove n m) (m.filter (fun p => round3 p.1 = r)) := by
  induction ns with
  | nil => intro m; rfl
  | cons n ns ih =>
    intro m
    show (ns.foldl (fun m n => mRemove n m) (mRemove n m)).filter _ = _
    rw [ih (mRemove n m), filter_mRemove]
    by_cases hnr : round3 n.time = r
    · rw [if_pos hnr, List.filter_cons_of_pos (by simpa using hnr)]
      rfl
    · rw [if_neg hnr, List.filter_cons_of_neg (by simpa using hnr)]

lemma projM_filter_group (notes : List MNote) (r : ℚ) :
    (projM notes).filter (fun p => round3 p.1 = r) = projM (groupAt notes r) := by
  unfold projM groupAt
  rw [Multiset.filter_coe, List.filter_map]
  rfl

lemma foldl_mRemove_map_copy (ns : List MNote) (m : Multiset (ℚ × ℤ × Lane)) :
    (ns.map MNote.copy).foldl (fun m n => mRemove n m) m =
      ns.foldl (fun m n => mRemove n m) m := by
  rw [List.foldl_map]
  have h : (fun (x : Multiset (ℚ × ℤ × Lane)) (y : MNote) => mRemove y.copy x) =
      (fun m n => mRemove n m) := by
    funext m n
    rfl
  rw [h]

lemma group_removal (g : List MNote) (k : MNote) (t : List MNote)
    (hsort : sortByLevel g = k :: t) :
    t.foldl (fun m n => mRemove n m) (projM g) = {projNote k} := by
  have hperm : projM g = projNote k ::ₘ ((t.map projNote : List _) : Multiset _) := by
    unfold projM
    have hp : g.Perm (k :: t) := by
      rw [← hsort]
      exact (List.perm_insertionSort levelLe g).symm
    rw [Multiset.coe_eq_coe.mpr (hp.map projNote), List.map_cons, ← Multiset.cons_coe]
  rw [hperm, foldl_mRemove_of_le t _ (Multiset.le_cons_self _ _),
    ← Multiset.singleton_add, add_tsub_cancel_right]

lemma cleanupRun_projM (b : Beatmap) (hne : b.notes ≠ [])
    (hntr : notesToRemove b.notes ≠ []) :
    projM (cleanupRun b).notes =
      (notesToRemove b.notes).foldl (fun m n => mRemove n m) (projM b.notes) := by
  unfold cleanupRun
  rw [if_neg hne, if_neg hntr]
  show projM (((notesToRemove b.notes).map MNote.copy).foldl removeOne b.notes) = _
  rw [projM_foldl_removeOne, foldl_mRemove_map_copy]

/-- C7: on the beatmap holding exactly `[{time 1, level 2, base},
{time 1, level 1, base}]` the cleanup removes exactly the level-2 note and
keeps the level-1 note; in general the head of the stable level-sort of a
rounded-time group is the spec's "lowest level, first on ties" choice, and
after the cleanup each rounded-time group of size > 1 retains exactly that
note (groups of size ≤ 1 are untouched). -/
theorem C7_cleanup_keeps_lowest_level :
    (cleanupRun ⟨{}, [⟨1, 2, Lane.base, false, 0⟩, ⟨1, 1, Lane.base, false, 1⟩],
        false⟩).notes = [⟨1, 1, Lane.base, false, 1⟩] ∧
    (∀ g : List MNote, (sortByLevel g).head? = specKeep g) ∧
    (∀ (b : Beatmap) (r : ℚ),
      (1 < (groupAt b.notes r).length →
        ∃ k, specKeep (groupAt b.notes r) = some k ∧
          (projM (cleanupRun b).notes).filter (fun p => round3 p.1 = r) = {projNote k}) ∧
      ((groupAt b.notes r).length ≤ 1 →
        (projM (cleanupRun b).notes).filter (fun p => round3 p.1 = r) =
          projM (groupAt b.notes r))) := by
  refine ⟨?_, sortByLevel_head, ?_⟩
  · norm_num [cleanupRun, notesToRemove, dedupFirst, groupAt, sortByLevel,
      List.insertionSort, List.orderedInsert, levelLe, round3, pyRoundInt,
      execC, remove_notes, removeOne, veqb, MNote.copy]
    rw [if_neg (List.cons_ne_nil _ _)]
  · intro b r
    constructor
    · intro hg
      match hsort : sortByLevel (groupAt b.notes r) with
      | [] =>
        exfalso
        have := List.length_insertionSort levelLe (groupAt b.notes r)
        rw [show (groupAt b.notes r).insertionSort levelLe =
          sortByLevel (groupAt b.notes r) from rfl, hsort] at this
        simp at this
        omega
      | k :: t =>
        refine ⟨k, ?_, ?_⟩
        · rw [← sortByLevel_head, hsort]
          rfl
        · have hne : b.notes ≠ [] := by
            intro hc
            rw [hc] at hg
            simp [groupAt] at hg
          have htlen : (sortByLevel (groupAt b.notes r)).length =
              (groupAt b.notes r).length := List.length_insertionSort _ _
          have hntr : notesToRemove b.notes ≠ [] := by
            intro hc
            have h0 := ntr_filter b.notes r
            rw [hc, if_pos hg] at h0
            have h1 : ((sortByLevel (groupAt b.notes r)).drop 1).length = 0 := by
              rw [← h0]
              rfl
            rw [List.length_drop, htlen] at h1
            omega
          rw [cleanupRun_projM b hne hntr, filter_foldl_mRemove, ntr_filter,
            if_pos hg, projM_filter_group, hsort]
          exact group_removal (groupAt b.notes r) k t hsort
    · intro hle
      by_cases hne : b.notes = []
      · have hrun : cleanupRun b = b := by
          unfold cleanupRun
          rw [if_pos hne]
        rw [hrun, projM_filter_group]
      · by_cases hntr : notesToRemove b.notes = []
        · have hrun : cleanupRun b = b := by
            unfold cleanupRun
            rw [if_neg hne, if_pos hntr]
          rw [hrun, projM_filter_group]
        · rw [cleanupRun_projM b hne hntr, filter_foldl_mRemove, ntr_filter,
            if_neg (by omega : ¬ 1 < (groupAt b.notes r).length), projM_filter_group]
          rfl

/-- Witness for C7's general clause at the concrete duplicate pair: the group
at rounded time 1 has two notes, and exactly the level-1 note survives. -/
theorem C7_cleanup_keeps_lowest_level_witness :
    ∃ k, specKeep (groupAt
        ([⟨1, 2, Lane.base, false, 0⟩, ⟨1, 1, Lane.base, false, 1⟩] : List MNote) 1) = some k ∧
      (projM (cleanupRun ⟨{}, [⟨1, 2, Lane.base, false, 0⟩, ⟨1, 1, Lane.base, false, 1⟩],
          false⟩).notes).filter (fun p => round3 p.1 = 1) = {projNote k} :=
  (C7_cleanup_keeps_lowest_level.2.2
    ⟨{}, [⟨1, 2, Lane.base, false, 0⟩, ⟨1, 1, Lane.base, false, 1⟩], false⟩ 1).1
    (by norm_num [groupAt, round3, pyRoundInt])

/-! ## C9: PatternEditor "apply to all" fallback (`ui/pattern_editor.py`)

`open` builds one `PatternSlot` per (sorted) grid time and derives the grid
step from the first two sorted grid times (0.0 when fewer than two);
`_on_apply_to_all` falls back to the plain `_on_apply` collection when the
pattern is empty or the step is not positive, and otherwise scans all
grid-aligned offsets.  Fresh `Note` objects created during the scan get ghost
id 0 (no claim observes their identity). -/

/-- Python `round(q, 6)` (used for the grid step). -/
def round6 (q : ℚ) : ℚ := (pyRoundInt (q * 1000000) : ℚ) / 1000000

structure PatternSlot where
  time : ℚ
  has_marker : Bool
  original_marker : Bool
  note : Option MNote
deriving DecidableEq, Repr

/-- The pattern-editor state captured by `open` that `_on_apply_to_all`
reads. -/
structure PEState where
  pattern_slots : List PatternSlot
  original_notes : List MNote
  grid_step : ℚ
  level : ℤ
  lane_type : Lane
  beatmap : Beatmap
  duration : ℚ

/-- `open`'s grid-step derivation: `round(sorted[1] - sorted[0], 6)` when at
least two grid times exist, else `0.0`. -/
def openGridStep (grid_times : List ℚ) : ℚ :=
  match grid_times.insertionSort (fun a b : ℚ => a ≤ b) with
  | g0 :: g1 :: _ => round6 (g1 - g0)
  | _ => 0

/-- `open`'s slot construction: one slot per sorted grid time, marked iff a
selected note rounds to it, holding the first such note. -/
def openSlots (selected : List MNote) (grid_times : List ℚ) : List PatternSlot :=
  (grid_times.insertionSort (fun a b : ℚ => a ≤ b)).map (fun gt =>
    let rt := round3 gt
    ⟨rt, selected.any (fun n => decide (round3 n.time = rt)),
     selected.any (fun n => decide (round3 n.time = rt)),
     selected.find? (fun n => decide (round3 n.time = rt))⟩)

/-- The whole relevant `open` state (`_original_notes` are copies; `level` and
`lane_type` come from the first selected note). -/
def openState (selected : List MNote) (grid_times : List ℚ) (b : Beatmap)
    (dur : ℚ) : PEState :=
  { pattern_slots := openSlots selected grid_times
    original_notes := selected.map MNote.copy
    grid_step := openGridStep grid_times
    level := selected.head?.elim 1 (fun n => n.level)
    lane_type := selected.head?.elim Lane.base (fun n => n.type)
    beatmap := b
    duration := dur }

/-- The `notes_added` collection shared by `_on_apply` and the head of
`_on_apply_to_all`. -/
def collectAdded (slots : List PatternSlot) : List MNote :=
  slots.filterMap (fun s =>
    if s.has_marker && !s.original_marker then s.note.map MNote.copy else none)

/-- The `notes_removed` collection (first original note with matching rounded
time, copied). -/
def collectRemoved (slots : List PatternSlot) (origs : List MNote) : List MNote :=
  slots.filterMap (fun s =>
    if !s.has_marker && s.original_marker then
      (origs.find? (fun o => decide (round3 o.time = round3 s.time))).map MNote.copy
    else none)

/-- The result handed to the callbacks: `on_apply(added, removed)` or
`on_apply_to_all(added, removed, matches_count)`. -/
inductive ApplyOutcome where
  | regular (added removed : List MNote)
  | toAll (added removed : List MNote) (matchCount : ℕ)
deriving DecidableEq, Repr

/-- `all_note_times` dict as an association list; inserts shadow at the front
(Python overwrite), deletion drops the key. -/
def dictInsert (d : List (ℚ × MNote)) (k : ℚ) (v : MNote) : List (ℚ × MNote) :=
  (k, v) :: d

def dictLookup (d : List (ℚ × MNote)) (k : ℚ) : Option MNote :=
  (d.find? (fun e => decide (e.1 = k))).map Prod.snd

def dictErase (d : List (ℚ × MNote)) (k : ℚ) : List (ℚ × MNote) :=
  d.filter (fun e => decide (¬ e.1 = k))

structure ScanState where
  ant : List (ℚ × MNote)
  bnotes : List MNote
  added : List MNote
  removed : List MNote
  matchCount : ℕ

/-- Python `min(slot.time for slot in pattern_slots)` (slots nonempty in all
call sites). -/
def slotsMinTime : List PatternSlot → ℚ
  | [] => 0
  | s :: rest => (rest.map (fun x => x.time)).foldl min s.time

def slotsMaxTime : List PatternSlot → ℚ
  | [] => 0
  | s :: rest => (rest.map (fun x => x.time)).foldl max s.time

/-- The per-slot transformation applied at a matched offset. -/
def applySlotAt (lvl : ℤ) (lane : Lane) (ct step : ℚ) (s : ScanState)
    (islot : ℕ × PatternSlot) : ScanState :=
  let check_time := round3 (ct + (islot.1 : ℚ) * step)
  let slot := islot.2
  if slot.has_marker && !slot.original_marker then
    if (dictLookup s.ant check_time).isSome then s
    else
      let new_note : MNote := ⟨check_time, lvl, lane, false, 0⟩
      { s with
        bnotes := s.bnotes ++ [new_note]
        added := s.added ++ [new_note.copy]
        ant := dictInsert s.ant check_time new_note }
  else if !slot.has_marker && slot.original_marker then
    match dictLookup s.ant check_time with
    | none => s
    | some note_to_remove =>
      if s.bnotes.any (veqb note_to_remove) then
        { s with
          removed := s.removed ++ [note_to_remove.copy]
          bnotes := s.bnotes.eraseP (veqb note_to_remove)
          ant := dictErase s.ant check_time }
      else s
  else s

/-- "This position matches the original pattern": each slot's occupancy in
`all_note_times` equals its original marker. -/
def matchesAt (slots : List PatternSlot) (ant : List (ℚ × MNote)) (ct step : ℚ) : Bool :=
  slots.enum.all (fun islot =>
    (dictLookup ant (round3 (ct + (islot.1 : ℚ) * step))).isSome == islot.2.original_marker)

/-- One iteration of the `while` scan loop: skip offsets overlapping the
selection, count and apply at matches. -/
def scanStep (st : PEState) (minT maxT pd : ℚ) (s : ScanState) (ct : ℚ) : ScanState :=
  if ¬ (ct + pd < minT ∨ maxT < ct) then s
  else if matchesAt st.pattern_slots s.ant ct st.grid_step then
    st.pattern_slots.enum.foldl (applySlotAt st.level st.lane_type ct st.grid_step)
      { s with matchCount := s.matchCount + 1 }
  else s

/-- The number of iterations of `while current_time + pattern_duration <=
duration` with `current_time = 0, step, 2·step, …` (step positive). -/
def numIters (step pd duration : ℚ) : ℕ :=
  if duration < pd then 0 else (⌊(duration - pd) / step⌋).toNat + 1

/-- `_on_apply_to_all`: the outcome delivered to the callback together with
the beatmap as left behind (the scan appends/removes notes and re-sorts;
the fallback path touches nothing). -/
def onApplyToAll (st : PEState) : ApplyOutcome × Beatmap :=
  if st.pattern_slots.length = 0 ∨ st.grid_step ≤ 0 then
    (ApplyOutcome.regular (collectAdded st.pattern_slots)
      (collectRemoved st.pattern_slots st.original_notes), st.beatmap)
  else
    let pd : ℚ := ((st.pattern_slots.length - 1 : ℕ) : ℚ) * st.grid_step
    let laneNotes := st.beatmap.notes.filter (fun n => decide (n.type = st.lane_type))
    let ant0 := laneNotes.foldl (fun d n => dictInsert d (round3 n.time) n) []
    let minT := slotsMinTime st.pattern_slots - 1/1000
    let maxT := slotsMaxTime st.pattern_slots + 1/1000
    let starts := (List.range (numIters st.grid_step pd st.duration)).map
      (fun k => (k : ℚ) * st.grid_step)
    let final := starts.foldl (scanStep st minT maxT pd)
      ⟨ant0, st.beatmap.notes, collectAdded st.pattern_slots,
        collectRemoved st.pattern_slots st.original_notes, 0⟩
    (ApplyOutcome.toAll final.added final.removed final.matchCount,
     { st.beatmap with notes := sortNotes final.bnotes })

lemma openGridStep_eq_zero {grid_times : List ℚ} (hgt : grid_times.length ≤ 1) :
    openGridStep grid_times = 0 := by
  have hlen : (grid_times.insertionSort (fun a b : ℚ => a ≤ b)).length ≤ 1 := by
    rw [List.length_insertionSort]
    exact hgt
  unfold openGridStep
  match hs : grid_times.insertionSort (fun a b : ℚ => a ≤ b) with
  | [] => rfl
  | [g] => rfl
  | g0 :: g1 :: rest =>
    exfalso
    rw [hs] at hlen
    simp at hlen

/-- C9: with zero or one grid slot no grid step can be derived (`open` sets it
to `0.0`), and `_on_apply_to_all` falls back to the plain apply: the outcome
is the `on_apply` collection over the original selection only — no global
scan runs, no match count is reported, and the beatmap is left untouched. -/
theorem C9_apply_to_all_fallback (selected : List MNote) (grid_times : List ℚ)
    (b : Beatmap) (dur : ℚ) (hgt : grid_times.length ≤ 1) :
    (openSlots selected grid_times).length ≤ 1 ∧
    onApplyToAll (openState selected grid_times b dur) =
      (ApplyOutcome.regular (collectAdded (openSlots selected grid_times))
        (collectRemoved (openSlots selected grid_times) (selected.map MNote.copy)),
       b) := by
  constructor
  · unfold openSlots
    rw [List.length_map, List.length_insertionSort]
    exact hgt
  · have hstep : openGridStep grid_times = 0 := openGridStep_eq_zero hgt
    unfold onApplyToAll
    rw [show (openState selected grid_times b dur).grid_step =
      openGridStep grid_times from rfl, hstep]
    rw [if_pos (Or.inr (le_refl (0 : ℚ)))]
    rfl

/-- Witness for C9: a single grid slot at time 1 falls back to the plain
apply. -/
theorem C9_apply_to_all_fallback_witness :
    (openSlots [⟨1, 1, Lane.base, false, 0⟩] [1]).length ≤ 1 ∧
    onApplyToAll (openState [⟨1, 1, Lane.base, false, 0⟩] [1] ⟨{}, [], false⟩ 10) =
      (ApplyOutcome.regular (collectAdded (openSlots [⟨1, 1, Lane.base, false, 0⟩] [1]))
        (collectRemoved (openSlots [⟨1, 1, Lane.base, false, 0⟩] [1])
          (([⟨1, 1, Lane.base, false, 0⟩] : List MNote).map MNote.copy)),
       ⟨{}, [], false⟩) :=
  C9_apply_to_all_fallback [⟨1, 1, Lane.base, false, 0⟩] [1] ⟨{}, [], false⟩ 10
    (by decide)

end BeatKanji
